import Mathlib

/-!
# Verification of the GPU kernel outlining pass
(`third_party/mlir/lib/Dialect/GPU/Transforms/KernelOutlining.cpp`)

A shallow embedding of the pass.  Values are identifiers (`Nat`); operations
created by a builder receive fresh result identifiers threaded through an
explicit counter.  Fatal assertion failures of the C++ (out-of-range block
argument access, `front()` of an empty region, `getResult(0)` of a
result-less operation) are modelled by `Option`.
-/

namespace GpuOutline

/-- An IR type (the pass only distinguishes the index type from the rest). -/
inductive MType where
  | index : MType
  | other : Nat → MType
deriving DecidableEq, Repr

/-- A value identifier. -/
abbrev Value := Nat

/-- The operation kinds the pass manipulates.  `gpu.block_id` / `gpu.thread_id` /
`gpu.grid_dim` / `gpu.block_dim` carry their dimension attribute ("x"/"y"/"z"). -/
inductive OpKind where
  | blockIdOp : String → OpKind
  | threadIdOp : String → OpKind
  | gridDimOp : String → OpKind
  | blockDimOp : String → OpKind
  | constantOp : Nat → OpKind
  | gpuReturnOp : OpKind
  | stdReturnOp : OpKind
  | genericOp : String → OpKind
deriving DecidableEq, Repr

/-- A region-free operation: kind, operand values, result values. -/
structure Operation where
  kind : OpKind
  operands : List Value
  results : List Value
deriving DecidableEq, Repr

/-- A basic block: argument values with their types, then the operation list. -/
structure Block where
  args : List Value
  argTypes : List MType
  ops : List Operation
deriving DecidableEq, Repr

/-- A function (`FuncOp`): symbol name, declared signature, attributes (unit
attributes are represented by their names), and the body region's blocks. -/
structure FuncOp where
  name : String
  argTypes : List MType
  resultTypes : List MType
  attrs : List String
  body : List Block
deriving DecidableEq, Repr

/-- The `gpu.launch` operation: launch configuration triples, kernel (live-in)
operands and the launch body region. -/
structure LaunchOp where
  gridSize : List Value
  blockSize : List Value
  kernelOperands : List Value
  body : List Block
deriving DecidableEq, Repr

/-- The `gpu.launch_func` operation: callee symbol, launch configuration
triples and kernel arguments. -/
structure LaunchFuncOp where
  callee : String
  gridSize : List Value
  blockSize : List Value
  kernelOperands : List Value
deriving DecidableEq, Repr

/-- `gpu::GPUDialect::getKernelFuncAttrName()`. -/
def kernelAttrName : String := "gpu.kernel"

/-- `gpu::GPUDialect::getKernelModuleAttrName()`. -/
def kernelModuleAttrName : String := "gpu.kernel_module"

/-- Substitute one value for another (a single use rewrite). -/
def substVal (a r v : Value) : Value := if v = a then r else v

/-- Rewrite the operands of an operation with an arbitrary value map. -/
def Operation.mapOperands (f : Value → Value) (op : Operation) : Operation :=
  { op with operands := op.operands.map f }

/-- Rewrite the operands of every operation of a block. -/
def Block.mapOperands (f : Value → Value) (b : Block) : Block :=
  { b with ops := b.ops.map (Operation.mapOperands f) }

/-- `Value::replaceAllUsesWith`: replace every use of `a` inside the function
body with `r`. -/
def FuncOp.replaceAllUsesWith (fc : FuncOp) (a r : Value) : FuncOp :=
  { fc with body := fc.body.map (Block.mapOperands (substVal a r)) }

/-- Insert an element at position `i` of a list (appends when `i` is past the
end, like inserting at an iterator). -/
def insertAt (i : Nat) (a : α) : List α → List α
  | [] => [a]
  | x :: xs => match i with
    | 0 => a :: x :: xs
    | j + 1 => x :: insertAt j a xs

/-- `Block::eraseArgument i` on the entry block: drop the `i`-th block argument
together with its type. -/
def FuncOp.eraseArg (fc : FuncOp) (i : Nat) : FuncOp :=
  match fc.body with
  | [] => fc
  | b :: rest =>
      { fc with body := { b with args := b.args.eraseIdx i,
                                 argTypes := b.argTypes.eraseIdx i } :: rest }

/-- Insert an operation at position `i` of the entry block's operation list. -/
def FuncOp.insertOpInEntry (fc : FuncOp) (i : Nat) (op : Operation) : Option FuncOp :=
  match fc.body with
  | [] => none
  | b :: rest => some { fc with body := { b with ops := insertAt i op b.ops } :: rest }

/-- `FuncOp::setAttr` with a unit attribute. -/
def FuncOp.setAttr (fc : FuncOp) (a : String) : FuncOp :=
  if a ∈ fc.attrs then fc else { fc with attrs := fc.attrs ++ [a] }

/-- An index-producing operation (`gpu.block_id` etc.): no operands, one fresh
result of index type. -/
def mkIndexOp (k : OpKind) (v : Value) : Operation :=
  { kind := k, operands := [], results := [v] }

/-- The dimension attributes iterated by `createForAllDimensions`. -/
def allDims : List String := ["x", "y", "z"]

/-- `createForAllDimensions<OpTy>`: create one index operation per dimension
x, y, z, appending to the accumulated list (`values`) and advancing the fresh
counter. -/
def createForAllDimensions (mk : String → OpKind) :
    List Operation × Nat → List Operation × Nat :=
  fun st =>
    allDims.foldl (fun st dim => (st.1 ++ [mkIndexOp (mk dim) st.2], st.2 + 1)) st

/-- The loop of `injectGpuIndexOperations`
(`for (int i = 11; i >= 0; --i) { replaceAllUsesWith; eraseArgument(i); }`),
counting down: at counter `i + 1` argument index `i` is processed.  A fatal
`getArgument` out-of-range access is `none`. -/
def injectLoop (indexOps : List Operation) : FuncOp → Nat → Option FuncOp
  | fc, 0 => some fc
  | fc, i + 1 => do
      let entry ← fc.body.head?
      let a ← entry.args[i]?
      let idxOp ← indexOps[i]?
      let r ← idxOp.results.head?
      injectLoop indexOps ((fc.replaceAllUsesWith a r).eraseArg i) i

/-- `injectGpuIndexOperations`: create the twelve index operations (block-id,
thread-id, grid-dim, block-dim; each for x, y, z) at the start of the entry
block, then replace the leading twelve block arguments by their results,
erasing the arguments from index 11 down to 0. -/
def injectGpuIndexOperations (kernelFunc : FuncOp) (fresh : Nat) :
    Option (FuncOp × Nat) :=
  match kernelFunc.body with
  | [] => none
  | entry :: rest =>
      let st0 := createForAllDimensions OpKind.blockIdOp ([], fresh)
      let st1 := createForAllDimensions OpKind.threadIdOp st0
      let st2 := createForAllDimensions OpKind.gridDimOp st1
      let st3 := createForAllDimensions OpKind.blockDimOp st2
      let indexOps := st3.1
      let fc : FuncOp :=
        { kernelFunc with body := { entry with ops := indexOps ++ entry.ops } :: rest }
      match injectLoop indexOps fc 12 with
      | none => none
      | some fc' => some (fc', st3.2)

/-- `dyn_cast<ConstantOp>`: is this operation a compile-time constant. -/
def Operation.isConstantOp (op : Operation) : Bool :=
  match op.kind with
  | .constantOp _ => true
  | _ => false

/-- Is the value defined by a constant operation (`getDefiningOp` then
`dyn_cast_or_null<ConstantOp>`; block arguments have no defining operation). -/
def isConstantValue (defOf : Value → Option Operation) (v : Value) : Bool :=
  match defOf v with
  | some op => op.isConstantOp
  | none => false

/-- Clone an operation, giving it fresh result values
(`kernelBuilder.clone(*operandOp)`). -/
def cloneWithFresh (op : Operation) (fresh : Nat) : Operation × Nat :=
  ({ op with results := (List.range op.results.length).map (fresh + ·) },
   fresh + op.results.length)

/-- The loop of `inlineConstants`
(`for (int i = launch.getNumKernelOperands() - 1; i >= 0; --i)`): at counter
`i + 1` operand index `i` is inspected.  Constant-defined operands are cloned
into the entry block (each clone is inserted at the builder's insertion point,
i.e. after the previously created clones and before the pre-existing
operations), the matching block argument's uses are redirected to the clone's
result and the argument is erased; other operands are collected in
`newLaunchArgs`.  State: function, collected arguments, number of clones
created so far, fresh counter. -/
def hoistLoop (defOf : Value → Option Operation) (operands : List Value) :
    Nat → FuncOp → List Value → Nat → Nat →
    Option (FuncOp × List Value × Nat × Nat)
  | 0, fc, newLaunchArgs, clones, fresh => some (fc, newLaunchArgs, clones, fresh)
  | i + 1, fc, newLaunchArgs, clones, fresh => do
      let v ← operands[i]?
      match defOf v with
      | some op =>
          if op.isConstantOp then do
            let (newConstant, fresh') := cloneWithFresh op fresh
            let fc1 ← fc.insertOpInEntry clones newConstant
            let entry ← fc1.body.head?
            let a ← entry.args[i]?
            let r ← newConstant.results.head?
            hoistLoop defOf operands i ((fc1.replaceAllUsesWith a r).eraseArg i)
              newLaunchArgs (clones + 1) fresh'
          else
            hoistLoop defOf operands i fc (newLaunchArgs ++ [v]) clones fresh
      | none =>
          hoistLoop defOf operands i fc (newLaunchArgs ++ [v]) clones fresh

/-- `inlineConstants`: hoist the constant-defined kernel arguments of `launch`
into `kernelFunc`.  If nothing was hoisted the original launch (and the
untouched function) is returned; otherwise the declared signature is rebuilt
from the surviving entry block arguments and a reduced
`gpu.launch_func` replaces the old one. -/
def inlineConstants (defOf : Value → Option Operation) (kernelFunc : FuncOp)
    (launch : LaunchFuncOp) (fresh : Nat) :
    Option (FuncOp × LaunchFuncOp × Nat) :=
  match kernelFunc.body.head? with
  | none => none
  | some _ => do
      let (fc, newLaunchArgs, _, fresh') ←
        hoistLoop defOf launch.kernelOperands launch.kernelOperands.length
          kernelFunc [] 0 fresh
      if newLaunchArgs.length = launch.kernelOperands.length then
        some (fc, launch, fresh')
      else do
        let newLaunchArgs := newLaunchArgs.reverse
        let entry ← fc.body.head?
        let newArgumentTypes := entry.argTypes
        let fc := { fc with argTypes := newArgumentTypes, resultTypes := [] }
        let newLaunch : LaunchFuncOp :=
          { callee := fc.name, gridSize := launch.gridSize,
            blockSize := launch.blockSize, kernelOperands := newLaunchArgs }
        some (fc, newLaunch, fresh')

/-- Rewrite one operation of the walk of `outlineKernelFunc`: a `gpu.return`
is replaced in place by a plain `std.return` (no operands) and erased. -/
def rewriteReturnOp (op : Operation) : Operation :=
  if op.kind = OpKind.gpuReturnOp then
    { kind := OpKind.stdReturnOp, operands := [], results := [] }
  else op

/-- The rewrite applied blockwise. -/
def rewriteBlockReturns (b : Block) : Block :=
  { b with ops := b.ops.map rewriteReturnOp }

/-- `outlinedFunc.walk([](gpu::Return op) ...)`: rewrite every `gpu.return`
of the body into `std.return`. -/
def FuncOp.rewriteAllReturns (fc : FuncOp) : FuncOp :=
  { fc with body := fc.body.map rewriteBlockReturns }

/-- `outlineKernelFunc`: build the function named after the host with the
`_kernel` suffix whose parameters are the launch's kernel operand types,
take the launch region's body, tag the function as a kernel, inject the index
operations and rewrite the terminators.  Returns the outlined function, the
launch operation with its (now empty, moved-from) body, and the fresh
counter. -/
def outlineKernelFunc (typeOf : Value → MType) (hostName : String)
    (launchOp : LaunchOp) (fresh : Nat) : Option (FuncOp × LaunchOp × Nat) :=
  let kernelOperandTypes := launchOp.kernelOperands.map typeOf
  let kernelFuncName := hostName ++ "_kernel"
  let outlinedFunc : FuncOp :=
    { name := kernelFuncName, argTypes := kernelOperandTypes, resultTypes := [],
      attrs := [], body := [] }
  let outlinedFunc := { outlinedFunc with body := launchOp.body }
  let launchOp' := { launchOp with body := [] }
  let outlinedFunc := outlinedFunc.setAttr kernelAttrName
  match injectGpuIndexOperations outlinedFunc fresh with
  | none => none
  | some (fc, fresh') => some (fc.rewriteAllReturns, launchOp', fresh')

/-- `convertToLaunchFuncOp` (operation-building part): create the
`gpu.launch_func` referencing `kernelFunc` with the launch configuration and
live-in operands copied unchanged from the `gpu.launch`, then run
`inlineConstants` on the pair.  (The erasure of the original launch operation
is the replacement performed by the caller at the host block.) -/
def convertToLaunchFuncOp (defOf : Value → Option Operation)
    (launchOp : LaunchOp) (kernelFunc : FuncOp) (fresh : Nat) :
    Option (FuncOp × LaunchFuncOp × Nat) :=
  let launchFuncOp : LaunchFuncOp :=
    { callee := kernelFunc.name, gridSize := launchOp.gridSize,
      blockSize := launchOp.blockSize, kernelOperands := launchOp.kernelOperands }
  inlineConstants defOf kernelFunc launchFuncOp fresh

/-! ## The pass driver -/

/-- An operation of a host function body: a plain operation, a `gpu.launch`,
or a `gpu.launch_func` call. -/
inductive HostOp where
  | plain : Operation → HostOp
  | launch : LaunchOp → HostOp
  | launchCall : LaunchFuncOp → HostOp
deriving DecidableEq, Repr

/-- A block of a host function. -/
structure HostBlock where
  args : List Value
  argTypes : List MType
  ops : List HostOp
deriving DecidableEq, Repr

/-- A host function. -/
structure HostFunc where
  name : String
  argTypes : List MType
  resultTypes : List MType
  attrs : List String
  body : List HostBlock
deriving DecidableEq, Repr

/-- A nested module created to hold kernel functions. -/
structure KernelModule where
  attrs : List String
  funcs : List FuncOp
deriving DecidableEq, Repr

/-- An item of the top-level module: a host function, an outlined function
(a `FuncOp` inserted by the module manager), or a nested kernel module. -/
inductive ModuleItem where
  | hfunc : HostFunc → ModuleItem
  | kfunc : FuncOp → ModuleItem
  | kmod : KernelModule → ModuleItem
deriving DecidableEq, Repr

/-- The top-level module. -/
structure ModuleOp where
  attrs : List String
  items : List ModuleItem
deriving DecidableEq, Repr

/-- The symbol names present in a module item list. -/
def moduleNames : List ModuleItem → List String
  | [] => []
  | .hfunc f :: rest => f.name :: moduleNames rest
  | .kfunc f :: rest => f.name :: moduleNames rest
  | .kmod _ :: rest => moduleNames rest

/-- `ModuleManager::insert` symbol uniquing: keep the name when free,
otherwise append `_k` for the smallest fresh `k`. -/
def freshName (taken : List String) (base : String) : String :=
  if base ∈ taken then
    match (List.range (taken.length + 1)).find?
        (fun k => (base ++ "_" ++ toString k) ∉ taken) with
    | some k => base ++ "_" ++ toString k
    | none => base
  else base

/-- One launch visit of the driver's walk: outline the kernel function,
insert it into the top-level module (uniquing its symbol against `taken`),
rewrite the call site (producing the final `gpu.launch_func`), clone the
declaration without its body and move the body into the clone, and wrap the
body-bearing clone in a fresh kernel module.  Returns the call operation,
the body-less declaration left at top level, the kernel module, and the
fresh counter. -/
def outlineOneLaunch (typeOf : Value → MType) (defOf : Value → Option Operation)
    (taken : List String) (hostName : String) (l : LaunchOp) (fresh : Nat) :
    Option (LaunchFuncOp × FuncOp × KernelModule × Nat) := do
  let (outlinedFunc, _, fr1) ← outlineKernelFunc typeOf hostName l fresh
  let outlinedFunc := { outlinedFunc with name := freshName taken outlinedFunc.name }
  let (outlinedFunc, newLaunch, fr2) ← convertToLaunchFuncOp defOf l outlinedFunc fr1
  let kernelFunc : FuncOp := outlinedFunc
  let declStub : FuncOp := { outlinedFunc with body := [] }
  let kernelModule : KernelModule :=
    { attrs := [kernelModuleAttrName], funcs := [kernelFunc] }
  pure (newLaunch, declStub, kernelModule, fr2)

/-- Walk the operations of one host block, outlining every `gpu.launch` in
order.  Returns the rewritten operation list, the module items to insert
after the host function, the updated symbol table and fresh counter. -/
def processHostOps (typeOf : Value → MType) (defOf : Value → Option Operation)
    (hostName : String) :
    List HostOp → List String → Nat →
    Option (List HostOp × List ModuleItem × List String × Nat)
  | [], taken, fresh => some ([], [], taken, fresh)
  | .launch l :: rest, taken, fresh => do
      let (newLaunch, declStub, kernelModule, fr1) ←
        outlineOneLaunch typeOf defOf taken hostName l fresh
      let (rest', items, taken', fr2) ←
        processHostOps typeOf defOf hostName rest (taken ++ [declStub.name]) fr1
      pure (.launchCall newLaunch :: rest',
            .kfunc declStub :: .kmod kernelModule :: items, taken', fr2)
  | hop :: rest, taken, fresh => do
      let (rest', items, taken', fr1) ←
        processHostOps typeOf defOf hostName rest taken fresh
      pure (hop :: rest', items, taken', fr1)

/-- Walk the blocks of a host function. -/
def processHostBlocks (typeOf : Value → MType) (defOf : Value → Option Operation)
    (hostName : String) :
    List HostBlock → List String → Nat →
    Option (List HostBlock × List ModuleItem × List String × Nat)
  | [], taken, fresh => some ([], [], taken, fresh)
  | b :: rest, taken, fresh => do
      let (ops', items, taken', fr1) :=
        ← processHostOps typeOf defOf hostName b.ops taken fresh
      let (rest', items', taken'', fr2) ←
        processHostBlocks typeOf defOf hostName rest taken' fr1
      pure ({ b with ops := ops' } :: rest', items ++ items', taken'', fr2)

/-- The body of `GpuKernelOutliningPass::runOnModule`: visit every function of
the module, outline its launches, and insert the produced declaration and
kernel module immediately after the host function. -/
def runItems (typeOf : Value → MType) (defOf : Value → Option Operation) :
    List ModuleItem → List String → Nat →
    Option (List ModuleItem × List String × Nat)
  | [], taken, fresh => some ([], taken, fresh)
  | .hfunc f :: rest, taken, fresh => do
      let (body', items, taken', fr1) ←
        processHostBlocks typeOf defOf f.name f.body taken fresh
      let (rest', taken'', fr2) ← runItems typeOf defOf rest taken' fr1
      pure (.hfunc { f with body := body' } :: (items ++ rest'), taken'', fr2)
  | it :: rest, taken, fresh => do
      let (rest', taken', fr1) ← runItems typeOf defOf rest taken fresh
      pure (it :: rest', taken', fr1)

/-- `GpuKernelOutliningPass::runOnModule`. -/
def runOnModule (typeOf : Value → MType) (defOf : Value → Option Operation)
    (m : ModuleOp) (fresh : Nat) : Option (ModuleOp × Nat) := do
  let (items', _, fr1) ← runItems typeOf defOf m.items (moduleNames m.items) fresh
  pure ({ m with items := items' }, fr1)

/-! ## Definitions used by statements: definitions and uses of values -/

/-- The values defined by a block: its arguments and its operations' results. -/
def Block.defsOf (b : Block) : List Value :=
  b.args ++ b.ops.flatMap Operation.results

/-- The values used by a block: its operations' operands. -/
def Block.usesOf (b : Block) : List Value := b.ops.flatMap Operation.operands

/-- Values defined anywhere in a region. -/
def defsB (bs : List Block) : List Value := bs.flatMap Block.defsOf

/-- Values used anywhere in a region. -/
def usesB (bs : List Block) : List Value := bs.flatMap Block.usesOf

/-- Operation results of a region. -/
def resultsB (bs : List Block) : List Value :=
  bs.flatMap (fun b => b.ops.flatMap Operation.results)

/-- A region is closed when every used value is defined inside it. -/
def ClosedB (bs : List Block) : Prop := ∀ v ∈ usesB bs, v ∈ defsB bs

/-- Every value used inside the function is defined inside it (by a block
argument, i.e. a function parameter for the entry block, or by an
operation). -/
def FuncOp.Closed (fc : FuncOp) : Prop := ClosedB fc.body

/-- All values of a region are below the fresh counter. -/
def BoundedB (bs : List Block) (n : Nat) : Prop :=
  (∀ v ∈ defsB bs, v < n) ∧ (∀ v ∈ usesB bs, v < n)

/-- The twelve index operations created by `injectGpuIndexOperations`, in
creation order, with results `fresh`, `fresh + 1`, …, `fresh + 11`. -/
def indexOps12 (fresh : Nat) : List Operation :=
  [mkIndexOp (.blockIdOp "x") fresh, mkIndexOp (.blockIdOp "y") (fresh + 1),
   mkIndexOp (.blockIdOp "z") (fresh + 2), mkIndexOp (.threadIdOp "x") (fresh + 3),
   mkIndexOp (.threadIdOp "y") (fresh + 4), mkIndexOp (.threadIdOp "z") (fresh + 5),
   mkIndexOp (.gridDimOp "x") (fresh + 6), mkIndexOp (.gridDimOp "y") (fresh + 7),
   mkIndexOp (.gridDimOp "z") (fresh + 8), mkIndexOp (.blockDimOp "x") (fresh + 9),
   mkIndexOp (.blockDimOp "y") (fresh + 10), mkIndexOp (.blockDimOp "z") (fresh + 11)]

/-- The simultaneous substitution replacing the `i`-th listed placeholder by
`fresh + i` (the result of the `i`-th injected operation). -/
def lookupSubst : List Value → Nat → Value → Value
  | [], _, v => v
  | a :: rest, r, v => if v = a then r else lookupSubst rest (r + 1) v

/-! ## Basic lemmas -/

theorem Operation.mapOperands_id (op : Operation) :
    Operation.mapOperands (fun v => v) op = op := by
  simp [Operation.mapOperands]

theorem Operation.mapOperands_comp (f g : Value → Value) (op : Operation) :
    Operation.mapOperands f (Operation.mapOperands g op) =
      Operation.mapOperands (fun v => f (g v)) op := by
  simp [Operation.mapOperands]

@[simp]
theorem Operation.mapOperands_kind (f : Value → Value) (op : Operation) :
    (Operation.mapOperands f op).kind = op.kind := rfl

@[simp]
theorem Operation.mapOperands_results (f : Value → Value) (op : Operation) :
    (Operation.mapOperands f op).results = op.results := rfl

theorem Block.blockMapOperands_id (b : Block) :
    Block.mapOperands (fun v => v) b = b := by
  have h : b.ops.map (Operation.mapOperands fun v => v) = b.ops := by
    induction b.ops with
    | nil => rfl
    | cons o os ih => simp [ih, Operation.mapOperands_id]
  cases b
  simp only [Block.mapOperands] at *
  simp [h]

theorem Block.blockMapOperands_comp (f g : Value → Value) (b : Block) :
    Block.mapOperands f (Block.mapOperands g b) =
      Block.mapOperands (fun v => f (g v)) b := by
  cases b
  simp only [Block.mapOperands, List.map_map]
  congr 1
  exact List.map_congr_left (fun op _ => Operation.mapOperands_comp f g op)

@[simp]
theorem Block.mapOperands_args (f : Value → Value) (b : Block) :
    (Block.mapOperands f b).args = b.args := rfl

@[simp]
theorem Block.mapOperands_argTypes (f : Value → Value) (b : Block) :
    (Block.mapOperands f b).argTypes = b.argTypes := rfl

theorem substVal_self (a r : Value) : substVal a r a = r := by simp [substVal]

theorem substVal_ne (a r v : Value) (h : v ≠ a) : substVal a r v = v := by
  simp [substVal, h]

theorem lookupSubst_not_mem {l : List Value} {v : Value} (h : v ∉ l) (r : Nat) :
    lookupSubst l r v = v := by
  induction l generalizing r with
  | nil => rfl
  | cons a rest ih =>
      have hva : v ≠ a := fun hv => h (hv ▸ List.mem_cons_self a rest)
      have hvr : v ∉ rest := fun hv => h (List.mem_cons_of_mem a hv)
      simp [lookupSubst, hva, ih hvr]

theorem lookupSubst_mem {l : List Value} {v : Value} (h : v ∈ l) (r : Nat) :
    ∃ j, j < l.length ∧ lookupSubst l r v = r + j := by
  induction l generalizing r with
  | nil => simp at h
  | cons a rest ih =>
      by_cases hva : v = a
      · exact ⟨0, by simp, by simp [lookupSubst, hva]⟩
      · have hvr : v ∈ rest := by
          rcases List.mem_cons.mp h with h1 | h1
          · exact absurd h1 hva
          · exact h1
        obtain ⟨j, hj, hval⟩ := ih hvr (r + 1)
        refine ⟨j + 1, ?_, ?_⟩
        · simpa using Nat.succ_lt_succ hj
        · simp only [lookupSubst, if_neg hva, hval]
          ring

theorem lookupSubst_append (l₁ l₂ : List Value) (r : Nat) (v : Value) :
    lookupSubst (l₁ ++ l₂) r v =
      if v ∈ l₁ then lookupSubst l₁ r v else lookupSubst l₂ (r + l₁.length) v := by
  induction l₁ generalizing r with
  | nil => simp [lookupSubst]
  | cons a rest ih =>
      by_cases hva : v = a
      · simp [lookupSubst, hva]
      · by_cases hvr : v ∈ rest
        · have hm : v ∈ a :: rest := List.mem_cons_of_mem a hvr
          simp only [List.cons_append, lookupSubst, if_neg hva, List.append_eq,
            ih (r + 1), if_pos hvr, if_pos hm]
        · have hnm : v ∉ a :: rest := by simp [hva, hvr]
          simp only [List.cons_append, lookupSubst, if_neg hva, List.append_eq,
            ih (r + 1), if_neg hvr, if_neg hnm, List.length_cons]
          have harith : r + 1 + rest.length = r + (rest.length + 1) := by ring
          rw [harith]

theorem lookupSubst_ne_of_lt {l : List Value} {r : Nat}
    (hlt : ∀ x ∈ l, x < r) {a : Value} (ha : a ∈ l) (v : Value) :
    lookupSubst l r v ≠ a := by
  by_cases hv : v ∈ l
  · obtain ⟨j, _, hval⟩ := lookupSubst_mem hv r
    rw [hval]
    intro hcontra
    have ha' : a < r := hlt a ha
    have hge : r ≤ r + j := Nat.le_add_right r j
    rw [hcontra] at hge
    exact absurd (Nat.lt_of_lt_of_le ha' hge) (Nat.lt_irrefl a)
  · rw [lookupSubst_not_mem hv]
    intro hva
    exact hv (hva ▸ ha)

theorem mem_insertAt {x a : α} :
    ∀ (l : List α) (k : Nat), x ∈ insertAt k a l ↔ x = a ∨ x ∈ l := by
  intro l
  induction l with
  | nil => intro k; simp [insertAt]
  | cons y ys ih =>
      intro k
      match k with
      | 0 => simp [insertAt]
      | j + 1 => simp [insertAt, ih j]; tauto

theorem insertAt_append (pre rest : List α) (a : α) :
    insertAt pre.length a (pre ++ rest) = pre ++ a :: rest := by
  induction pre with
  | nil => cases rest <;> rfl
  | cons x xs ih => simp [insertAt, ih]

theorem eraseIdx_append_middle (B : List α) (b : α) (S : List α) :
    (B ++ b :: S).eraseIdx B.length = B ++ S := by
  induction B with
  | nil => rfl
  | cons x xs ih => simp [List.eraseIdx, ih]

theorem getElem?_append_middle (B : List α) (b : α) (S : List α) :
    (B ++ b :: S)[B.length]? = some b := by
  induction B with
  | nil => simp
  | cons x xs ih => simpa using ih

/-! ## Lemmas about index-operation injection -/

theorem lookupSubst_nil (r : Nat) : lookupSubst [] r = fun v => v :=
  funext fun _ => rfl

theorem map_mapOperands_id (ops : List Operation) :
    ops.map (Operation.mapOperands (fun v => v)) = ops := by
  induction ops with
  | nil => rfl
  | cons o os ih => simp [ih, Operation.mapOperands_id]

theorem map_blockMap_id (bs : List Block) :
    bs.map (Block.mapOperands (fun v => v)) = bs := by
  induction bs with
  | nil => rfl
  | cons b rest ih => simp [ih, Block.blockMapOperands_id]

theorem map_mapOperands_comp_eq {f g k : Value → Value}
    (h : ∀ v, f (g v) = k v) (ops : List Operation) :
    (ops.map (Operation.mapOperands g)).map (Operation.mapOperands f) =
      ops.map (Operation.mapOperands k) := by
  rw [List.map_map]
  refine List.map_congr_left (fun op _ => ?_)
  show Operation.mapOperands f (Operation.mapOperands g op) = Operation.mapOperands k op
  rw [Operation.mapOperands_comp]
  exact congrArg (fun φ => Operation.mapOperands φ op) (funext h)

theorem map_blockMap_comp_eq {f g k : Value → Value}
    (h : ∀ v, f (g v) = k v) (bs : List Block) :
    (bs.map (Block.mapOperands g)).map (Block.mapOperands f) =
      bs.map (Block.mapOperands k) := by
  rw [List.map_map]
  refine List.map_congr_left (fun b _ => ?_)
  show Block.mapOperands f (Block.mapOperands g b) = Block.mapOperands k b
  rw [Block.blockMapOperands_comp]
  exact congrArg (fun φ => Block.mapOperands φ b) (funext h)

theorem createForAllDimensions_chain (fresh : Nat) :
    createForAllDimensions OpKind.blockDimOp
      (createForAllDimensions OpKind.gridDimOp
        (createForAllDimensions OpKind.threadIdOp
          (createForAllDimensions OpKind.blockIdOp ([], fresh)))) =
      (indexOps12 fresh, fresh + 12) := rfl

theorem indexOps12_map (fresh : Nat) (f : Value → Value) :
    (indexOps12 fresh).map (Operation.mapOperands f) = indexOps12 fresh := rfl

theorem indexOps12_get?_exists (fresh : Nat) {i : Nat} (h : i < 12) :
    ∃ k, (indexOps12 fresh)[i]? = some (mkIndexOp k (fresh + i)) := by
  interval_cases i <;> exact ⟨_, rfl⟩

/-- The kinds of the injected operations, in order: block ids, thread ids,
grid dimensions, block dimensions, each for x, y, z. -/
theorem indexOps12_kinds (fresh : Nat) :
    (indexOps12 fresh).map Operation.kind =
      [.blockIdOp "x", .blockIdOp "y", .blockIdOp "z",
       .threadIdOp "x", .threadIdOp "y", .threadIdOp "z",
       .gridDimOp "x", .gridDimOp "y", .gridDimOp "z",
       .blockDimOp "x", .blockDimOp "y", .blockDimOp "z"] := rfl

theorem lookupSubst_step (B : List Value) (b : Value) (fresh : Nat)
    (hb : b ∉ B) (hlt : ∀ a ∈ B, a < fresh) (v : Value) :
    lookupSubst B fresh (substVal b (fresh + B.length) v) =
      lookupSubst (B ++ [b]) fresh v := by
  rw [lookupSubst_append]
  by_cases hv : v ∈ B
  · have hvb : v ≠ b := fun h => hb (h ▸ hv)
    rw [substVal_ne _ _ _ hvb, if_pos hv]
  · rw [if_neg hv]
    by_cases hvb : v = b
    · subst hvb
      rw [substVal_self]
      have hnm : (fresh + B.length) ∉ B := fun hm =>
        absurd (hlt _ hm) (by simp)
      rw [lookupSubst_not_mem hnm]
      simp [lookupSubst]
    · rw [substVal_ne _ _ _ hvb, lookupSubst_not_mem hv]
      simp [lookupSubst, hvb]

theorem injectLoop_succ (indexOps : List Operation) (fc : FuncOp) (i : Nat)
    (entry : Block) (h1 : fc.body.head? = some entry)
    (a : Value) (h2 : entry.args[i]? = some a)
    (op : Operation) (h3 : indexOps[i]? = some op)
    (r : Value) (h4 : op.results.head? = some r) :
    injectLoop indexOps fc (i + 1) =
      injectLoop indexOps ((fc.replaceAllUsesWith a r).eraseArg i) i := by
  simp [injectLoop, h1, h2, h3, h4]

theorem injectLoop_spec (fresh : Nat) :
    ∀ (i : Nat) (plh S : List Value) (TA TS : List MType) (opsB : List Operation)
      (more : List Block) (nm : String) (aT rT : List MType) (ats : List String),
      plh.length = i → TA.length = i → i ≤ 12 →
      plh.Nodup → (∀ a ∈ plh, a < fresh) →
      injectLoop (indexOps12 fresh)
        ⟨nm, aT, rT, ats, ⟨plh ++ S, TA ++ TS, opsB⟩ :: more⟩ i =
        some ⟨nm, aT, rT, ats,
          ⟨S, TS, opsB.map (Operation.mapOperands (lookupSubst plh fresh))⟩ ::
            more.map (Block.mapOperands (lookupSubst plh fresh))⟩ := by
  intro i
  induction i with
  | zero =>
      intro plh S TA TS opsB more nm aT rT ats hplh hTA _ _ _
      have h1 : plh = [] := List.eq_nil_of_length_eq_zero hplh
      have h2 : TA = [] := List.eq_nil_of_length_eq_zero hTA
      subst h1; subst h2
      simp [injectLoop, lookupSubst_nil, map_mapOperands_id, map_blockMap_id]
  | succ i ih =>
      intro plh S TA TS opsB more nm aT rT ats hplh hTA hle hnd hlt
      rcases List.eq_nil_or_concat plh with rfl | ⟨B, b, rfl⟩
      · simp at hplh
      rcases List.eq_nil_or_concat TA with rfl | ⟨TB, tb, rfl⟩
      · simp at hTA
      simp only [List.concat_eq_append] at hplh hTA hnd hlt ⊢
      have hB : B.length = i := by simpa using hplh
      have hTB : TB.length = i := by simpa using hTA
      obtain ⟨hndB, -, hdisj⟩ := List.nodup_append.mp hnd
      have hbB : b ∉ B := fun hm => hdisj hm (List.mem_singleton.mpr rfl)
      have hltB : ∀ a ∈ B, a < fresh := fun a ha =>
        hlt a (List.mem_append_left _ ha)
      have hargs : ((B ++ [b]) ++ S)[i]? = some b := by
        rw [List.append_assoc, List.singleton_append, ← hB]
        exact getElem?_append_middle B b S
      have hi12 : i < 12 := Nat.lt_of_lt_of_le (Nat.lt_succ_self i) hle
      obtain ⟨k, hidx⟩ := indexOps12_get?_exists fresh hi12
      rw [injectLoop_succ (indexOps12 fresh)
        ⟨nm, aT, rT, ats, ⟨(B ++ [b]) ++ S, (TB ++ [tb]) ++ TS, opsB⟩ :: more⟩ i
        ⟨(B ++ [b]) ++ S, (TB ++ [tb]) ++ TS, opsB⟩ rfl b hargs _ hidx
        (fresh + i) rfl]
      have hargsE : ((B ++ b :: S).eraseIdx i) = B ++ S := by
        rw [← hB]
        exact eraseIdx_append_middle B b S
      have hTypesE : ((TB ++ tb :: TS).eraseIdx i) = TB ++ TS := by
        rw [← hTB]
        exact eraseIdx_append_middle TB tb TS
      have hfc : (((⟨nm, aT, rT, ats,
            ⟨(B ++ [b]) ++ S, (TB ++ [tb]) ++ TS, opsB⟩ :: more⟩ : FuncOp)
              |>.replaceAllUsesWith b (fresh + i)) |>.eraseArg i)
          = ⟨nm, aT, rT, ats,
              ⟨B ++ S, TB ++ TS,
               opsB.map (Operation.mapOperands (substVal b (fresh + i)))⟩ ::
                more.map (Block.mapOperands (substVal b (fresh + i)))⟩ := by
        simp [FuncOp.replaceAllUsesWith, FuncOp.eraseArg, Block.mapOperands,
          hargsE, hTypesE]
      rw [hfc,
        ih B S TB TS _ _ nm aT rT ats hB hTB (Nat.le_of_succ_le hle) hndB hltB]
      have hpt : ∀ v, lookupSubst B fresh (substVal b (fresh + i) v) =
          lookupSubst (B ++ [b]) fresh v := by
        intro v
        have hstep := lookupSubst_step B b fresh hbB hltB v
        rwa [hB] at hstep
      rw [map_mapOperands_comp_eq hpt opsB, map_blockMap_comp_eq hpt more]

theorem injectGpuIndexOperations_spec (fresh : Nat) (plh S : List Value)
    (TA TS : List MType) (opsB : List Operation) (more : List Block)
    (nm : String) (aT rT : List MType) (ats : List String)
    (hplh : plh.length = 12) (hTA : TA.length = 12)
    (hnd : plh.Nodup) (hlt : ∀ a ∈ plh, a < fresh) :
    injectGpuIndexOperations
        ⟨nm, aT, rT, ats, ⟨plh ++ S, TA ++ TS, opsB⟩ :: more⟩ fresh =
      some (⟨nm, aT, rT, ats,
        ⟨S, TS,
         indexOps12 fresh ++
           opsB.map (Operation.mapOperands (lookupSubst plh fresh))⟩ ::
          more.map (Block.mapOperands (lookupSubst plh fresh))⟩, fresh + 12) := by
  have hloop := injectLoop_spec fresh 12 plh S TA TS
    (indexOps12 fresh ++ opsB) more nm aT rT ats hplh hTA (le_refl 12) hnd hlt
  rw [show ((indexOps12 fresh ++ opsB).map
        (Operation.mapOperands (lookupSubst plh fresh))) =
      indexOps12 fresh ++
        opsB.map (Operation.mapOperands (lookupSubst plh fresh)) from by
    rw [List.map_append, indexOps12_map]] at hloop
  simp only [injectGpuIndexOperations, createForAllDimensions_chain, hloop]

theorem injectLoop_none_of_args (indexOps : List Operation) (fc : FuncOp)
    (i : Nat) (entry : Block) (h1 : fc.body.head? = some entry)
    (h2 : entry.args[i]? = none) :
    injectLoop indexOps fc (i + 1) = none := by
  simp [injectLoop, h1, h2]

/-- Fewer than twelve placeholder arguments: the first loop iteration hits the
fatal out-of-range `getArgument(11)`. -/
theorem injectGpuIndexOperations_none_of_lt (nm : String) (aT rT : List MType)
    (ats : List String) (entry : Block) (rest : List Block) (fresh : Nat)
    (hlen : entry.args.length < 12) :
    injectGpuIndexOperations ⟨nm, aT, rT, ats, entry :: rest⟩ fresh = none := by
  have hnone : ({ entry with ops := indexOps12 fresh ++ entry.ops } : Block).args[11]? =
      none := by
    apply List.getElem?_eq_none
    simpa using Nat.le_of_lt_succ hlen
  have hfail := injectLoop_none_of_args (indexOps12 fresh)
    ⟨nm, aT, rT, ats, { entry with ops := indexOps12 fresh ++ entry.ops } :: rest⟩
    11 { entry with ops := indexOps12 fresh ++ entry.ops } rfl hnone
  simp only [injectGpuIndexOperations, createForAllDimensions_chain, hfail]

theorem injectLoop_isSome (fresh : Nat) :
    ∀ (i : Nat) (fc : FuncOp) (entry : Block) (rest : List Block),
      fc.body = entry :: rest → i ≤ 12 → i ≤ entry.args.length →
      (injectLoop (indexOps12 fresh) fc i).isSome := by
  intro i
  induction i with
  | zero => intro fc entry rest _ _ _; simp [injectLoop]
  | succ i ih =>
      intro fc entry rest hbody hle hlen
      have hil : i < entry.args.length := by omega
      have hex : ∃ a, entry.args[i]? = some a := by
        rw [List.getElem?_eq_getElem hil]
        exact ⟨_, rfl⟩
      obtain ⟨a, ha⟩ := hex
      obtain ⟨k, hidx⟩ := indexOps12_get?_exists fresh (show i < 12 by omega)
      rw [injectLoop_succ (indexOps12 fresh) fc i entry (by rw [hbody]; rfl)
        _ ha _ hidx (fresh + i) rfl]
      cases fc with
      | mk nm aT rT ats body =>
          simp only at hbody
          subst hbody
          apply ih _
            ⟨entry.args.eraseIdx i, entry.argTypes.eraseIdx i,
             entry.ops.map (Operation.mapOperands (substVal a (fresh + i)))⟩
            (rest.map (Block.mapOperands (substVal a (fresh + i))))
          · simp [FuncOp.replaceAllUsesWith, FuncOp.eraseArg, Block.mapOperands]
          · omega
          · simp only [List.length_eraseIdx_of_lt hil]
            omega

/-- With at least twelve placeholder arguments the injection always
succeeds: the fatal branch is unreachable. -/
theorem injectGpuIndexOperations_isSome (nm : String) (aT rT : List MType)
    (ats : List String) (entry : Block) (rest : List Block) (fresh : Nat)
    (hlen : 12 ≤ entry.args.length) :
    (injectGpuIndexOperations ⟨nm, aT, rT, ats, entry :: rest⟩ fresh).isSome := by
  have hsome := injectLoop_isSome fresh 12
    ⟨nm, aT, rT, ats, { entry with ops := indexOps12 fresh ++ entry.ops } :: rest⟩
    { entry with ops := indexOps12 fresh ++ entry.ops } rest rfl (le_refl 12)
    (by simpa using hlen)
  obtain ⟨out, hout⟩ := Option.isSome_iff_exists.mp hsome
  simp only [injectGpuIndexOperations, createForAllDimensions_chain, hout]
  rfl

/-! ## Lemmas about constant hoisting -/

theorem cloneWithFresh_results_head (op : Operation) (fr : Nat)
    (h : op.results ≠ []) :
    (cloneWithFresh op fr).1.results.head? = some fr := by
  cases hk : op.results with
  | nil => exact absurd hk h
  | cons x xs =>
      simp [cloneWithFresh, hk, List.range_succ_eq_map]

@[simp]
theorem cloneWithFresh_kind (op : Operation) (fr : Nat) :
    (cloneWithFresh op fr).1.kind = op.kind := rfl

theorem hoistLoop_succ_nonconst (defOf : Value → Option Operation)
    (operands : List Value) (i : Nat) (fc : FuncOp) (acc : List Value)
    (cl fr : Nat) (v : Value) (h1 : operands[i]? = some v)
    (h2 : isConstantValue defOf v = false) :
    hoistLoop defOf operands (i + 1) fc acc cl fr =
      hoistLoop defOf operands i fc (acc ++ [v]) cl fr := by
  cases hd : defOf v with
  | none => simp [hoistLoop, h1, hd]
  | some op =>
      have hco : op.isConstantOp = false := by
        simpa [isConstantValue, hd] using h2
      simp [hoistLoop, h1, hd, hco]

theorem hoistLoop_succ_const (defOf : Value → Option Operation)
    (operands : List Value) (i : Nat) (fc : FuncOp) (acc : List Value)
    (cl fr : Nat) (v : Value) (op : Operation)
    (h1 : operands[i]? = some v) (h2 : defOf v = some op)
    (h3 : op.isConstantOp = true) (fc1 : FuncOp) (entry : Block) (a r : Value)
    (h4 : fc.insertOpInEntry cl (cloneWithFresh op fr).1 = some fc1)
    (h5 : fc1.body.head? = some entry) (h6 : entry.args[i]? = some a)
    (h7 : (cloneWithFresh op fr).1.results.head? = some r) :
    hoistLoop defOf operands (i + 1) fc acc cl fr =
      hoistLoop defOf operands i ((fc1.replaceAllUsesWith a r).eraseArg i)
        acc (cl + 1) (cloneWithFresh op fr).2 := by
  simp [hoistLoop, h1, h2, h3, h4, h5, h6, h7]

theorem hoistLoop_succ_inv (defOf : Value → Option Operation)
    (operands : List Value) (i : Nat) (fc : FuncOp) (acc : List Value)
    (cl fr : Nat) (out : FuncOp × List Value × Nat × Nat)
    (h : hoistLoop defOf operands (i + 1) fc acc cl fr = some out) :
    ∃ v, operands[i]? = some v ∧
      ((isConstantValue defOf v = false ∧
        hoistLoop defOf operands i fc (acc ++ [v]) cl fr = some out) ∨
       (∃ op fc1 entry a r, defOf v = some op ∧ op.isConstantOp = true ∧
         fc.insertOpInEntry cl (cloneWithFresh op fr).1 = some fc1 ∧
         fc1.body.head? = some entry ∧ entry.args[i]? = some a ∧
         (cloneWithFresh op fr).1.results.head? = some r ∧
         hoistLoop defOf operands i ((fc1.replaceAllUsesWith a r).eraseArg i)
           acc (cl + 1) (cloneWithFresh op fr).2 = some out)) := by
  cases hv : operands[i]? with
  | none => rw [hoistLoop, hv] at h; exact absurd h (by simp)
  | some v =>
      refine ⟨v, rfl, ?_⟩
      cases hd : defOf v with
      | none =>
          left
          refine ⟨by simp [isConstantValue, hd], ?_⟩
          rw [hoistLoop, hv] at h
          simpa [hd] using h
      | some op =>
          by_cases hc : op.isConstantOp
          · right
            cases hins : fc.insertOpInEntry cl (cloneWithFresh op fr).1 with
            | none =>
                rw [hoistLoop, hv] at h
                simp [hd, hc, hins] at h
            | some fc1 =>
                cases hhd : fc1.body.head? with
                | none =>
                    rw [hoistLoop, hv] at h
                    simp [hd, hc, hins, hhd] at h
                | some entry =>
                    cases harg : entry.args[i]? with
                    | none =>
                        rw [hoistLoop, hv] at h
                        simp [hd, hc, hins, hhd, harg] at h
                    | some a =>
                        cases hres : (cloneWithFresh op fr).1.results.head? with
                        | none =>
                            rw [hoistLoop, hv] at h
                            simp [hd, hc, hins, hhd, harg, hres] at h
                        | some r =>
                            rw [hoistLoop_succ_const defOf operands i fc acc
                              cl fr v op hv hd hc fc1 entry a r hins hhd harg
                              hres] at h
                            exact ⟨op, fc1, entry, a, r, rfl, hc, hins, hhd,
                              harg, hres, h⟩
          · left
            have hcf : isConstantValue defOf v = false := by
              simp [isConstantValue, hd]
              exact Bool.of_not_eq_true hc
            refine ⟨hcf, ?_⟩
            rw [hoistLoop, hv] at h
            simpa [hd, hc] using h

theorem take_succ_of_getElem? {l : List α} {i : Nat} {v : α}
    (h : l[i]? = some v) : l.take (i + 1) = l.take i ++ [v] := by
  rw [List.take_succ, h]
  rfl

theorem hoistLoop_nop (defOf : Value → Option Operation) (operands : List Value) :
    ∀ (i : Nat), i ≤ operands.length →
      (∀ v ∈ operands.take i, isConstantValue defOf v = false) →
      ∀ (fc : FuncOp) (acc : List Value) (cl fr : Nat),
      hoistLoop defOf operands i fc acc cl fr =
        some (fc, acc ++ (operands.take i).reverse, cl, fr) := by
  intro i
  induction i with
  | zero => intro _ _ fc acc cl fr; simp [hoistLoop]
  | succ i ih =>
      intro hle hnc fc acc cl fr
      have hil : i < operands.length := by omega
      have hv : operands[i]? = some operands[i] := List.getElem?_eq_getElem hil
      have htake : operands.take (i + 1) = operands.take i ++ [operands[i]] :=
        take_succ_of_getElem? hv
      have hmem : operands[i] ∈ operands.take (i + 1) := by
        rw [htake]; exact List.mem_append_right _ (List.mem_singleton.mpr rfl)
      have hnci : isConstantValue defOf operands[i] = false := hnc _ hmem
      rw [hoistLoop_succ_nonconst defOf operands i fc acc cl fr _ hv hnci]
      rw [ih (by omega)
        (fun v hvm => hnc v (by rw [htake]; exact List.mem_append_left _ hvm))]
      rw [htake, List.reverse_append]
      simp

theorem hoistLoop_collected (defOf : Value → Option Operation)
    (operands : List Value) :
    ∀ (i : Nat) (fc : FuncOp) (acc : List Value) (cl fr : Nat)
      (out : FuncOp × List Value × Nat × Nat),
      hoistLoop defOf operands i fc acc cl fr = some out →
      (∀ v ∈ acc, isConstantValue defOf v = false) →
      ∀ v ∈ out.2.1, isConstantValue defOf v = false := by
  intro i
  induction i with
  | zero =>
      intro fc acc cl fr out hrun hacc
      simp only [hoistLoop] at hrun
      cases hrun
      simpa using hacc
  | succ i ih =>
      intro fc acc cl fr out hrun hacc
      obtain ⟨v, hv, hcase⟩ := hoistLoop_succ_inv defOf operands i fc acc cl fr out hrun
      rcases hcase with ⟨hnc, hrec⟩ | ⟨op, fc1, entry, a, r, _, _, _, _, _, _, hrec⟩
      · refine ih _ _ _ _ _ hrec (fun u hu => ?_)
        rcases List.mem_append.mp hu with hu | hu
        · exact hacc u hu
        · rw [List.mem_singleton.mp hu]; exact hnc
      · exact ih _ _ _ _ _ hrec hacc

theorem hoistLoop_counts (defOf : Value → Option Operation)
    (operands : List Value) :
    ∀ (i : Nat) (fc : FuncOp) (acc : List Value) (cl fr : Nat)
      (fc' : FuncOp) (na : List Value) (cl' fr' : Nat),
      hoistLoop defOf operands i fc acc cl fr = some (fc', na, cl', fr') →
      cl ≤ cl' ∧ (cl' = cl → fc' = fc ∧ fr' = fr) := by
  intro i
  induction i with
  | zero =>
      intro fc acc cl fr fc' na cl' fr' hrun
      simp only [hoistLoop, Option.some.injEq, Prod.mk.injEq] at hrun
      obtain ⟨h1, -, h3, h4⟩ := hrun
      subst h1; subst h3; subst h4
      exact ⟨le_refl _, fun _ => ⟨rfl, rfl⟩⟩
  | succ i ih =>
      intro fc acc cl fr fc' na cl' fr' hrun
      obtain ⟨v, hv, hcase⟩ :=
        hoistLoop_succ_inv defOf operands i fc acc cl fr _ hrun
      rcases hcase with ⟨hnc, hrec⟩ | ⟨op, fc1, entry, a, r, _, _, _, _, _, _, hrec⟩
      · exact ih _ _ _ _ _ _ _ _ hrec
      · obtain ⟨hge, _⟩ := ih _ _ _ _ _ _ _ _ hrec
        constructor
        · omega
        · intro hcl
          omega

theorem FuncOp.replaceAllUsesWith_fields (fc : FuncOp) (a r : Value) :
    (fc.replaceAllUsesWith a r).name = fc.name ∧
    (fc.replaceAllUsesWith a r).attrs = fc.attrs ∧
    (fc.replaceAllUsesWith a r).argTypes = fc.argTypes ∧
    (fc.replaceAllUsesWith a r).resultTypes = fc.resultTypes :=
  ⟨rfl, rfl, rfl, rfl⟩

theorem FuncOp.eraseArg_fields (fc : FuncOp) (i : Nat) :
    (fc.eraseArg i).name = fc.name ∧ (fc.eraseArg i).attrs = fc.attrs ∧
    (fc.eraseArg i).argTypes = fc.argTypes ∧
    (fc.eraseArg i).resultTypes = fc.resultTypes := by
  cases fc with
  | mk nm aT rT ats body =>
      cases body <;> simp [FuncOp.eraseArg]

theorem FuncOp.insertOpInEntry_fields (fc : FuncOp) (k : Nat) (op : Operation)
    (fc1 : FuncOp) (h : fc.insertOpInEntry k op = some fc1) :
    fc1.name = fc.name ∧ fc1.attrs = fc.attrs ∧
    fc1.argTypes = fc.argTypes ∧ fc1.resultTypes = fc.resultTypes := by
  cases fc with
  | mk nm aT rT ats body =>
      cases body with
      | nil => exact absurd h (by simp [FuncOp.insertOpInEntry])
      | cons b rest =>
          simp only [FuncOp.insertOpInEntry, Option.some.injEq] at h
          subst h
          exact ⟨rfl, rfl, rfl, rfl⟩

theorem hoistLoop_preserves (defOf : Value → Option Operation)
    (operands : List Value) :
    ∀ (i : Nat) (fc : FuncOp) (acc : List Value) (cl fr : Nat)
      (fc' : FuncOp) (na : List Value) (cl' fr' : Nat),
      hoistLoop defOf operands i fc acc cl fr = some (fc', na, cl', fr') →
      fc'.name = fc.name ∧ fc'.attrs = fc.attrs ∧
      fc'.argTypes = fc.argTypes ∧ fc'.resultTypes = fc.resultTypes := by
  intro i
  induction i with
  | zero =>
      intro fc acc cl fr fc' na cl' fr' hrun
      simp only [hoistLoop, Option.some.injEq] at hrun
      rw [show fc' = fc from congrArg Prod.fst hrun.symm]
      exact ⟨rfl, rfl, rfl, rfl⟩
  | succ i ih =>
      intro fc acc cl fr fc' na cl' fr' hrun
      obtain ⟨v, hv, hcase⟩ :=
        hoistLoop_succ_inv defOf operands i fc acc cl fr _ hrun
      rcases hcase with ⟨hnc, hrec⟩ |
        ⟨op, fc1, entry, a, r, _, _, hins, _, _, _, hrec⟩
      · exact ih _ _ _ _ _ _ _ _ hrec
      · obtain ⟨e1, e2, e3, e4⟩ := ih _ _ _ _ _ _ _ _ hrec
        obtain ⟨i1, i2, i3, i4⟩ := FuncOp.insertOpInEntry_fields fc cl _ fc1 hins
        obtain ⟨r1, r2, r3, r4⟩ := FuncOp.replaceAllUsesWith_fields fc1 a r
        obtain ⟨g1, g2, g3, g4⟩ :=
          FuncOp.eraseArg_fields (fc1.replaceAllUsesWith a r) i
        exact ⟨by rw [e1, g1, r1, i1], by rw [e2, g2, r2, i2],
          by rw [e3, g3, r3, i3], by rw [e4, g4, r4, i4]⟩

/-- The elements of `L` at the positions whose matching operand is not
defined by a constant operation, in order. -/
def keepByOperands (defOf : Value → Option Operation) (operands : List Value)
    (L : List α) : List α :=
  ((L.zip operands).filter (fun p => !(isConstantValue defOf p.2))).map Prod.fst

theorem keepByOperands_concat (defOf : Value → Option Operation)
    {front : List Value} {B : List α} (hlen : B.length = front.length)
    (v : Value) (b : α) :
    keepByOperands defOf (front ++ [v]) (B ++ [b]) =
      keepByOperands defOf front B ++
        (if isConstantValue defOf v then [] else [b]) := by
  unfold keepByOperands
  rw [List.zip_append hlen, List.filter_append, List.map_append]
  congr 1
  by_cases hc : isConstantValue defOf v <;> simp [hc]

theorem hoistLoop_spec (defOf : Value → Option Operation) (operands : List Value)
    (hconst : ∀ v op, defOf v = some op → op.isConstantOp = true →
      op.results ≠ []) :
    ∀ (i : Nat), i ≤ operands.length →
    ∀ (A S : List Value) (TA TS : List MType) (preOps restOps : List Operation)
      (more : List Block) (nm : String) (aT rT : List MType) (ats : List String)
      (acc : List Value) (cl fr : Nat),
      A.length = i → TA.length = i → preOps.length = cl →
      ∃ (σ : Value → Value) (clonesF : List Operation) (more' : List Block)
        (fr' : Nat),
        hoistLoop defOf operands i
          ⟨nm, aT, rT, ats, ⟨A ++ S, TA ++ TS, preOps ++ restOps⟩ :: more⟩
          acc cl fr =
          some (⟨nm, aT, rT, ats,
            ⟨keepByOperands defOf (operands.take i) A ++ S,
             keepByOperands defOf (operands.take i) TA ++ TS,
             preOps.map (Operation.mapOperands σ) ++ clonesF ++
               restOps.map (Operation.mapOperands σ)⟩ :: more'⟩,
            acc ++ ((operands.take i).filter
              (fun v => !(isConstantValue defOf v))).reverse,
            cl + ((operands.take i).filter
              (fun v => isConstantValue defOf v)).length, fr') ∧
          (∀ c ∈ clonesF, ∃ u op, u ∈ operands ∧ defOf u = some op ∧
            op.isConstantOp = true ∧ c.kind = op.kind) ∧
          clonesF.length = ((operands.take i).filter
            (fun v => isConstantValue defOf v)).length := by
  intro i
  induction i with
  | zero =>
      intro _ A S TA TS preOps restOps more nm aT rT ats acc cl fr hA hTA hpre
      have h1 : A = [] := List.eq_nil_of_length_eq_zero hA
      have h2 : TA = [] := List.eq_nil_of_length_eq_zero hTA
      subst h1; subst h2
      refine ⟨fun v => v, [], more, fr, ?_, by simp, by simp⟩
      simp [hoistLoop, keepByOperands, map_mapOperands_id]
  | succ i ih =>
      intro hle A S TA TS preOps restOps more nm aT rT ats acc cl fr hA hTA hpre
      have hil : i < operands.length := by omega
      have hv : operands[i]? = some operands[i] := List.getElem?_eq_getElem hil
      have htake : operands.take (i + 1) = operands.take i ++ [operands[i]] :=
        take_succ_of_getElem? hv
      rcases List.eq_nil_or_concat A with rfl | ⟨B, b, rfl⟩
      · simp at hA
      rcases List.eq_nil_or_concat TA with rfl | ⟨TB, tb, rfl⟩
      · simp at hTA
      simp only [List.concat_eq_append] at hA hTA ⊢
      have hB : B.length = i := by simpa using hA
      have hTB : TB.length = i := by simpa using hTA
      have hlenTake : (operands.take i).length = i := by
        simp [List.length_take]
        omega
      have hkB := @keepByOperands_concat Value defOf
        (operands.take i) B (by rw [hB, hlenTake]) operands[i] b
      have hkT := @keepByOperands_concat MType defOf
        (operands.take i) TB (by rw [hTB, hlenTake]) operands[i] tb
      by_cases hc : isConstantValue defOf operands[i]
      · -- the operand is defined by a constant operation: clone and erase
        obtain ⟨op, hop⟩ : ∃ op, defOf operands[i] = some op := by
          cases hdo : defOf operands[i] with
          | none => rw [isConstantValue, hdo] at hc; simp at hc
          | some op => exact ⟨op, rfl⟩
        have hco : op.isConstantOp = true := by
          rw [isConstantValue, hop] at hc; exact hc
        have hresne : op.results ≠ [] := hconst _ _ hop hco
        have hrhead := cloneWithFresh_results_head op fr hresne
        have hins : (⟨nm, aT, rT, ats,
            ⟨(B ++ [b]) ++ S, (TB ++ [tb]) ++ TS, preOps ++ restOps⟩ ::
              more⟩ : FuncOp).insertOpInEntry cl (cloneWithFresh op fr).1 =
            some ⟨nm, aT, rT, ats,
              ⟨(B ++ [b]) ++ S, (TB ++ [tb]) ++ TS,
               preOps ++ (cloneWithFresh op fr).1 :: restOps⟩ :: more⟩ := by
          simp only [FuncOp.insertOpInEntry, Option.some.injEq]
          rw [← hpre, insertAt_append]
        have hargd : ((B ++ [b]) ++ S)[i]? = some b := by
          rw [List.append_assoc, List.singleton_append, ← hB]
          exact getElem?_append_middle B b S
        obtain ⟨σ, clonesF, more', fr', hrun, horigin, hlenC⟩ :=
          ih (by omega) B S TB TS
            (preOps.map (Operation.mapOperands (substVal b fr)) ++
              [Operation.mapOperands (substVal b fr) (cloneWithFresh op fr).1])
            (restOps.map (Operation.mapOperands (substVal b fr)))
            (more.map (Block.mapOperands (substVal b fr))) nm aT rT ats acc
            (cl + 1) (cloneWithFresh op fr).2 hB hTB (by simp [hpre])
        refine ⟨fun v => σ (substVal b fr v),
          Operation.mapOperands σ
            (Operation.mapOperands (substVal b fr) (cloneWithFresh op fr).1) ::
            clonesF, more', fr', ?_, ?_, ?_⟩
        · rw [hoistLoop_succ_const defOf operands i _ acc cl fr operands[i] op
            hv hop hco _ _ b fr hins rfl hargd hrhead]
          have hargsE : ((B ++ b :: S).eraseIdx i) = B ++ S := by
            rw [← hB]; exact eraseIdx_append_middle B b S
          have hTypesE : ((TB ++ tb :: TS).eraseIdx i) = TB ++ TS := by
            rw [← hTB]; exact eraseIdx_append_middle TB tb TS
          have hfc : ((((⟨nm, aT, rT, ats,
                ⟨(B ++ [b]) ++ S, (TB ++ [tb]) ++ TS,
                 preOps ++ (cloneWithFresh op fr).1 :: restOps⟩ ::
                  more⟩ : FuncOp)).replaceAllUsesWith b fr).eraseArg i)
              = ⟨nm, aT, rT, ats,
                  ⟨B ++ S, TB ++ TS,
                   (preOps.map (Operation.mapOperands (substVal b fr)) ++
                     [Operation.mapOperands (substVal b fr)
                       (cloneWithFresh op fr).1]) ++
                     restOps.map (Operation.mapOperands (substVal b fr))⟩ ::
                    more.map (Block.mapOperands (substVal b fr))⟩ := by
            simp [FuncOp.replaceAllUsesWith, FuncOp.eraseArg, Block.mapOperands,
              hargsE, hTypesE]
          rw [hfc, hrun]
          have hcol1 := map_mapOperands_comp_eq
            (f := σ) (g := substVal b fr)
            (k := fun v => σ (substVal b fr v)) (fun v => rfl) preOps
          have hcol2 := map_blockMap_comp_eq
            (f := σ) (g := substVal b fr)
            (k := fun v => σ (substVal b fr v)) (fun v => rfl) more
          rw [htake, hkB, hkT]
          simp only [hc, if_true, List.append_nil, List.filter_append,
            List.map_append, hcol1, hcol2, List.reverse_append]
          simp [hc, List.filter_cons, List.append_assoc]
          exact ⟨fun a _ => Operation.mapOperands_comp σ (substVal b fr) a,
            by omega⟩
        · intro c hcmem
          rcases List.mem_cons.mp hcmem with hhd | htl
          · exact ⟨operands[i], op, List.getElem?_mem hv, hop, hco, by
              rw [hhd]; simp⟩
          · exact horigin c htl
        · rw [htake, List.filter_append]
          simp [hc, List.filter_cons, hlenC]
      · -- the operand is not constant-defined: it is collected
        have hcf : isConstantValue defOf operands[i] = false :=
          Bool.of_not_eq_true hc
        obtain ⟨σ, clonesF, more', fr', hrun, horigin, hlenC⟩ :=
          ih (by omega) B (b :: S) TB (tb :: TS) preOps restOps more nm aT rT
            ats (acc ++ [operands[i]]) cl fr hB hTB hpre
        refine ⟨σ, clonesF, more', fr', ?_, horigin, ?_⟩
        · rw [hoistLoop_succ_nonconst defOf operands i _ acc cl fr _ hv hcf]
          rw [show (B ++ [b]) ++ S = B ++ b :: S by simp,
            show (TB ++ [tb]) ++ TS = TB ++ tb :: TS by simp, hrun]
          rw [htake, hkB, hkT]
          simp only [hcf, Bool.false_eq_true, if_false, List.filter_append,
            List.reverse_append]
          simp [hc, List.filter_cons, List.append_assoc]
        · rw [htake, List.filter_append]
          simp [hc, List.filter_cons, hlenC]

theorem hoistLoop_sum (defOf : Value → Option Operation)
    (operands : List Value) :
    ∀ (i : Nat) (fc : FuncOp) (acc : List Value) (cl fr : Nat)
      (fc' : FuncOp) (na : List Value) (cl' fr' : Nat),
      hoistLoop defOf operands i fc acc cl fr = some (fc', na, cl', fr') →
      na.length + cl' = acc.length + cl + i := by
  intro i
  induction i with
  | zero =>
      intro fc acc cl fr fc' na cl' fr' hrun
      simp only [hoistLoop, Option.some.injEq, Prod.mk.injEq] at hrun
      obtain ⟨-, h2, h3, -⟩ := hrun
      subst h2; subst h3
      omega
  | succ i ih =>
      intro fc acc cl fr fc' na cl' fr' hrun
      obtain ⟨v, hv, hcase⟩ :=
        hoistLoop_succ_inv defOf operands i fc acc cl fr _ hrun
      rcases hcase with ⟨hnc, hrec⟩ | ⟨op, fc1, entry, a, r, _, _, _, _, _, _, hrec⟩
      · have := ih _ _ _ _ _ _ _ _ hrec
        simp at this
        omega
      · have := ih _ _ _ _ _ _ _ _ hrec
        omega

/-- If no kernel argument is constant-defined, `inlineConstants` leaves the
call and the callee completely unchanged and creates nothing. -/
theorem inlineConstants_nop (defOf : Value → Option Operation) (kf : FuncOp)
    (launch : LaunchFuncOp) (fr : Nat) (hne : kf.body ≠ [])
    (hnc : ∀ v ∈ launch.kernelOperands, isConstantValue defOf v = false) :
    inlineConstants defOf kf launch fr = some (kf, launch, fr) := by
  obtain ⟨entry, rest, hbody⟩ : ∃ e r, kf.body = e :: r := by
    cases hb : kf.body with
    | nil => exact absurd hb hne
    | cons e r => exact ⟨e, r, rfl⟩
  have hloop := hoistLoop_nop defOf launch.kernelOperands
    launch.kernelOperands.length (le_refl _)
    (by intro v hv; exact hnc v (by simpa using hv)) kf [] 0 fr
  rw [List.take_length] at hloop
  simp [inlineConstants, hbody, hloop]

theorem inlineConstants_eq_of_loop (defOf : Value → Option Operation)
    (kf : FuncOp) (launch : LaunchFuncOp) (fr : Nat)
    (entry0 : Block) (hb : kf.body.head? = some entry0)
    (fc : FuncOp) (newArgs : List Value) (cl' fr₂ : Nat)
    (hloop : hoistLoop defOf launch.kernelOperands
      launch.kernelOperands.length kf [] 0 fr = some (fc, newArgs, cl', fr₂)) :
    inlineConstants defOf kf launch fr =
      (if newArgs.length = launch.kernelOperands.length then
        some (fc, launch, fr₂)
      else
        match fc.body.head? with
        | none => none
        | some entry =>
            some ({ fc with argTypes := entry.argTypes, resultTypes := [] },
              { callee := fc.name, gridSize := launch.gridSize,
                blockSize := launch.blockSize,
                kernelOperands := newArgs.reverse }, fr₂)) := by
  unfold inlineConstants
  rw [hb]
  simp only [hloop, Option.bind_some]
  by_cases hlen : newArgs.length = launch.kernelOperands.length
  · simp [hlen]
  · simp only [hlen, if_false]
    cases hhd : fc.body.head? with
    | none => simp [hhd, hlen]
    | some entry => simp [hhd, hlen]

theorem inlineConstants_idem (defOf : Value → Option Operation) (kf : FuncOp)
    (l : LaunchFuncOp) (fr : Nat) (kf' : FuncOp) (l' : LaunchFuncOp) (fr' : Nat)
    (h : inlineConstants defOf kf l fr = some (kf', l', fr')) :
    inlineConstants defOf kf' l' fr' = some (kf', l', fr') := by
  cases hb : kf.body.head? with
  | none => rw [inlineConstants, hb] at h; exact absurd h (by simp)
  | some entry0 =>
      cases hloop : hoistLoop defOf l.kernelOperands l.kernelOperands.length
          kf [] 0 fr with
      | none =>
          rw [inlineConstants, hb] at h
          simp [hloop] at h
      | some q =>
          obtain ⟨fc, newArgs, cl', fr₂⟩ := q
          have hcoll : ∀ v ∈ newArgs, isConstantValue defOf v = false :=
            hoistLoop_collected defOf l.kernelOperands _ _ _ _ _ _ hloop
              (by intro v hv; simp at hv)
          rw [inlineConstants_eq_of_loop defOf kf l fr entry0 hb fc newArgs
            cl' fr₂ hloop] at h
          by_cases hlen : newArgs.length = l.kernelOperands.length
          · rw [if_pos hlen] at h
            have hsum := hoistLoop_sum defOf l.kernelOperands _ _ _ _ _ _ _ _ _ hloop
            have hcl0 : cl' = 0 := by
              simp only [List.length_nil] at hsum
              omega
            obtain ⟨-, hfix⟩ :=
              hoistLoop_counts defOf l.kernelOperands _ _ _ _ _ _ _ _ _ hloop
            obtain ⟨hfc, hfr⟩ := hfix hcl0
            simp only [Option.some.injEq, Prod.mk.injEq] at h
            obtain ⟨h1, h2, h3⟩ := h
            rw [← h1, ← h2, ← h3, hfc, hfr]
            have hloop' := hloop
            rw [hfc, hfr] at hloop'
            rw [inlineConstants_eq_of_loop defOf kf l fr entry0 hb kf newArgs
              cl' fr hloop', if_pos hlen, ← hfc]
          · rw [if_neg hlen] at h
            cases hhd : fc.body.head? with
            | none =>
                rw [hhd] at h
                exact absurd h (by simp)
            | some entry1 =>
                rw [hhd] at h
                simp only [Option.some.injEq, Prod.mk.injEq] at h
                obtain ⟨h1, h2, h3⟩ := h
                subst h1; subst h2; subst h3
                have hbody1 : fc.body ≠ [] := by
                  intro hnil
                  rw [hnil] at hhd
                  exact Option.noConfusion hhd
                apply inlineConstants_nop
                · simpa using hbody1
                · intro v hv
                  simp only [List.mem_reverse] at hv
                  exact hcoll v hv

/-- The final `gpu.launch_func` built by `convertToLaunchFuncOp` keeps the
launch configuration and references the kernel function by name; the kernel
function's name and attributes are never changed by the hoisting. -/
theorem convertToLaunchFuncOp_fields (defOf : Value → Option Operation)
    (l : LaunchOp) (kf : FuncOp) (fr : Nat) (kf' : FuncOp) (L : LaunchFuncOp)
    (fr' : Nat) (h : convertToLaunchFuncOp defOf l kf fr = some (kf', L, fr')) :
    L.gridSize = l.gridSize ∧ L.blockSize = l.blockSize ∧
    L.callee = kf.name ∧ kf'.name = kf.name ∧ kf'.attrs = kf.attrs := by
  unfold convertToLaunchFuncOp at h
  cases hb : kf.body.head? with
  | none => rw [inlineConstants, hb] at h; exact absurd h (by simp)
  | some entry0 =>
      cases hloop : hoistLoop defOf l.kernelOperands l.kernelOperands.length
          kf [] 0 fr with
      | none =>
          rw [inlineConstants, hb] at h
          simp [hloop] at h
      | some q =>
          obtain ⟨fc, newArgs, cl', fr₂⟩ := q
          obtain ⟨hnm, hattrs, -, -⟩ :=
            hoistLoop_preserves defOf l.kernelOperands _ _ _ _ _ _ _ _ _ hloop
          rw [inlineConstants_eq_of_loop defOf kf
            { callee := kf.name, gridSize := l.gridSize,
              blockSize := l.blockSize,
              kernelOperands := l.kernelOperands } fr entry0 hb fc newArgs
            cl' fr₂ hloop] at h
          by_cases hlen : newArgs.length = l.kernelOperands.length
          · rw [if_pos hlen] at h
            simp only [Option.some.injEq, Prod.mk.injEq] at h
            obtain ⟨h1, h2, -⟩ := h
            subst h1; subst h2
            exact ⟨rfl, rfl, rfl, hnm, hattrs⟩
          · rw [if_neg hlen] at h
            cases hhd : fc.body.head? with
            | none =>
                rw [hhd] at h
                exact absurd h (by simp)
            | some entry1 =>
                rw [hhd] at h
                simp only [Option.some.injEq, Prod.mk.injEq] at h
                obtain ⟨h1, h2, -⟩ := h
                subst h1; subst h2
                exact ⟨rfl, rfl, hnm, hnm, hattrs⟩

/-! ## Closure (no-dangling-references) infrastructure -/

/-- The entry block arguments of a function. -/
def FuncOp.entryArgs (fc : FuncOp) : List Value :=
  match fc.body with
  | [] => []
  | b :: _ => b.args

theorem opsUses_map (f : Value → Value) (ops : List Operation) :
    (ops.map (Operation.mapOperands f)).flatMap Operation.operands =
      (ops.flatMap Operation.operands).map f := by
  induction ops with
  | nil => rfl
  | cons o os ih => simp [Operation.mapOperands, ih]

theorem opsResults_map (f : Value → Value) (ops : List Operation) :
    (ops.map (Operation.mapOperands f)).flatMap Operation.results =
      ops.flatMap Operation.results := by
  induction ops with
  | nil => rfl
  | cons o os ih => simp [ih]

theorem defsB_map_blockMap (f : Value → Value) (bs : List Block) :
    defsB (bs.map (Block.mapOperands f)) = defsB bs := by
  induction bs with
  | nil => rfl
  | cons b rest ih =>
      simp only [defsB, List.map_cons, List.flatMap_cons] at ih ⊢
      rw [ih]
      congr 1
      simp [Block.defsOf, Block.mapOperands, opsResults_map]

theorem usesB_map_blockMap (f : Value → Value) (bs : List Block) :
    usesB (bs.map (Block.mapOperands f)) = (usesB bs).map f := by
  induction bs with
  | nil => rfl
  | cons b rest ih =>
      simp only [usesB, List.map_cons, List.flatMap_cons] at ih ⊢
      rw [ih, List.map_append]
      congr 1
      simp [Block.usesOf, Block.mapOperands, opsUses_map]

theorem resultsB_map_blockMap (f : Value → Value) (bs : List Block) :
    resultsB (bs.map (Block.mapOperands f)) = resultsB bs := by
  induction bs with
  | nil => rfl
  | cons b rest ih =>
      simp only [resultsB, List.map_cons, List.flatMap_cons] at ih ⊢
      rw [ih]
      congr 1
      simp [Block.mapOperands, opsResults_map]

theorem resultsB_subset_defsB (bs : List Block) :
    ∀ v ∈ resultsB bs, v ∈ defsB bs := by
  intro v hv
  simp only [resultsB, List.mem_flatMap] at hv
  obtain ⟨b, hb, hvb⟩ := hv
  simp only [defsB, List.mem_flatMap]
  refine ⟨b, hb, ?_⟩
  simp only [Block.defsOf, List.mem_append]
  right
  exact List.mem_flatMap.mpr hvb

theorem mem_eraseIdx_of_ne {l : List α} :
    ∀ {i : Nat} {a x : α}, l[i]? = some a → x ∈ l → x ≠ a → x ∈ l.eraseIdx i := by
  induction l with
  | nil => intro i a x hget; simp at hget
  | cons y ys ih =>
      intro i a x hget hx hne
      match i with
      | 0 =>
          simp only [List.getElem?_cons_zero, Option.some.injEq] at hget
          subst hget
          rcases List.mem_cons.mp hx with rfl | hx'
          · exact absurd rfl hne
          · simpa [List.eraseIdx] using hx'
      | j + 1 =>
          simp only [List.getElem?_cons_succ] at hget
          rcases List.mem_cons.mp hx with rfl | hx'
          · simp [List.eraseIdx]
          · simp only [List.eraseIdx, List.mem_cons]
            exact Or.inr (ih hget hx' hne)

theorem eraseIdx_subset' {l : List α} {i : Nat} : ∀ x ∈ l.eraseIdx i, x ∈ l := by
  intro x hx
  exact List.eraseIdx_subset _ _ hx

/-- The region resulting from one replace-then-erase step on the entry
block. -/
def stepRegion (entry : Block) (rest : List Block) (i : Nat) (a r : Value) :
    List Block :=
  ⟨entry.args.eraseIdx i, entry.argTypes.eraseIdx i,
   entry.ops.map (Operation.mapOperands (substVal a r))⟩ ::
    rest.map (Block.mapOperands (substVal a r))

theorem step_body_eq (nm : String) (aT rT : List MType) (ats : List String)
    (entry : Block) (rest : List Block) (i : Nat) (a r : Value) :
    (((⟨nm, aT, rT, ats, entry :: rest⟩ : FuncOp).replaceAllUsesWith a r
      |>.eraseArg i)).body = stepRegion entry rest i a r := by
  simp [FuncOp.replaceAllUsesWith, FuncOp.eraseArg, Block.mapOperands, stepRegion]

theorem stepRegion_results (entry : Block) (rest : List Block) (i : Nat)
    (a r : Value) :
    resultsB (stepRegion entry rest i a r) = resultsB (entry :: rest) := by
  have hrest := resultsB_map_blockMap (substVal a r) rest
  simp only [resultsB] at hrest
  simp only [stepRegion, resultsB, List.flatMap_cons]
  rw [opsResults_map, hrest]

theorem stepRegion_defs_subset (entry : Block) (rest : List Block) (i : Nat)
    (a r : Value) :
    ∀ v ∈ defsB (stepRegion entry rest i a r), v ∈ defsB (entry :: rest) := by
  intro v hv
  have hrest := defsB_map_blockMap (substVal a r) rest
  simp only [defsB] at hrest
  simp only [stepRegion, defsB, List.flatMap_cons, Block.defsOf,
    List.mem_append] at hv
  simp only [defsB, List.flatMap_cons, Block.defsOf, List.mem_append]
  rcases hv with (hv | hv) | hv
  · exact Or.inl (Or.inl (eraseIdx_subset' v hv))
  · rw [opsResults_map] at hv
    exact Or.inl (Or.inr hv)
  · rw [hrest] at hv
    exact Or.inr hv

theorem stepRegion_uses (entry : Block) (rest : List Block) (i : Nat)
    (a r : Value) :
    ∀ v ∈ usesB (stepRegion entry rest i a r),
      v = r ∨ (v ∈ usesB (entry :: rest) ∧ v ≠ a) := by
  intro v hv
  have husesEq : usesB (stepRegion entry rest i a r) =
      (usesB (entry :: rest)).map (substVal a r) := by
    have hrest := usesB_map_blockMap (substVal a r) rest
    simp only [usesB] at hrest
    simp only [stepRegion, usesB, List.flatMap_cons, Block.usesOf,
      opsUses_map, List.map_append]
    rw [hrest]
  rw [husesEq, List.mem_map] at hv
  obtain ⟨w, hw, hsub⟩ := hv
  by_cases hwa : w = a
  · subst hwa
    rw [substVal_self] at hsub
    exact Or.inl hsub.symm
  · rw [substVal_ne _ _ _ hwa] at hsub
    subst hsub
    exact Or.inr ⟨hw, hwa⟩

theorem stepRegion_closed (entry : Block) (rest : List Block) (i : Nat)
    (a r : Value) (ha : entry.args[i]? = some a) (hra : r ≠ a)
    (hr : r ∈ resultsB (entry :: rest)) (hcl : ClosedB (entry :: rest)) :
    ClosedB (stepRegion entry rest i a r) := by
  intro v hv
  rcases stepRegion_uses entry rest i a r v hv with rfl | ⟨hw, hwa⟩
  · exact resultsB_subset_defsB _ v (by rw [stepRegion_results]; exact hr)
  · have hdef := hcl v hw
    have hrest := defsB_map_blockMap (substVal a r) rest
    simp only [defsB] at hrest
    simp only [defsB, List.flatMap_cons, Block.defsOf, List.mem_append] at hdef
    simp only [stepRegion, defsB, List.flatMap_cons, Block.defsOf,
      List.mem_append]
    rcases hdef with (hdef | hdef) | hdef
    · exact Or.inl (Or.inl (mem_eraseIdx_of_ne ha hdef hwa))
    · rw [← opsResults_map (substVal a r) entry.ops] at hdef
      exact Or.inl (Or.inr hdef)
    · rw [← hrest] at hdef
      exact Or.inr hdef

theorem add_ne_of_lt {a n j : Nat} (h : a < n) : n + j ≠ a := by omega

theorem FuncOp.entryArgs_eq {fc : FuncOp} {b : Block} {rest : List Block}
    (h : fc.body = b :: rest) : fc.entryArgs = b.args := by
  unfold FuncOp.entryArgs
  rw [h]

theorem injectLoop_succ_inv (indexOps : List Operation) (fc : FuncOp) (i : Nat)
    (fc' : FuncOp) (h : injectLoop indexOps fc (i + 1) = some fc') :
    ∃ entry a op r, fc.body.head? = some entry ∧ entry.args[i]? = some a ∧
      indexOps[i]? = some op ∧ op.results.head? = some r ∧
      injectLoop indexOps ((fc.replaceAllUsesWith a r).eraseArg i) i = some fc' := by
  cases hh : fc.body.head? with
  | none => rw [injectLoop, hh] at h; exact absurd h (by simp)
  | some entry =>
      cases ha : entry.args[i]? with
      | none => rw [injectLoop, hh] at h; simp [ha] at h
      | some a =>
          cases hop : indexOps[i]? with
          | none => rw [injectLoop, hh] at h; simp [ha, hop] at h
          | some op =>
              cases hr : op.results.head? with
              | none => rw [injectLoop, hh] at h; simp [ha, hop, hr] at h
              | some r =>
                  rw [injectLoop_succ indexOps fc i entry hh a ha op hop r hr] at h
                  exact ⟨entry, a, op, r, rfl, ha, rfl, hr, h⟩

theorem indexOps12_get?_inv (fresh : Nat) {i : Nat} {op : Operation}
    (h : (indexOps12 fresh)[i]? = some op) :
    i < 12 ∧ op.operands = [] ∧ op.results = [fresh + i] := by
  have hlt : i < 12 := by
    by_contra hge
    rw [List.getElem?_eq_none
      (by simpa [indexOps12] using Nat.le_of_not_lt hge)] at h
    exact Option.noConfusion h
  obtain ⟨k, hk⟩ := indexOps12_get?_exists fresh hlt
  rw [hk] at h
  have hop : mkIndexOp k (fresh + i) = op := by injection h
  rw [← hop]
  exact ⟨hlt, rfl, rfl⟩

theorem injectLoop_closed (fresh : Nat) :
    ∀ (i : Nat) (fc fc' : FuncOp),
      injectLoop (indexOps12 fresh) fc i = some fc' →
      ClosedB fc.body →
      (∀ a ∈ fc.entryArgs, a < fresh) →
      (∀ j, j < 12 → (fresh + j) ∈ resultsB fc.body) →
      (∀ v ∈ defsB fc.body, v < fresh + 12) →
      (∀ v ∈ usesB fc.body, v < fresh + 12) →
      ClosedB fc'.body ∧ (∀ v ∈ defsB fc'.body, v < fresh + 12) ∧
        (∀ v ∈ usesB fc'.body, v < fresh + 12) := by
  intro i
  induction i with
  | zero =>
      intro fc fc' h hcl _ _ hd hu
      simp only [injectLoop, Option.some.injEq] at h
      subst h
      exact ⟨hcl, hd, hu⟩
  | succ i ih =>
      intro fc fc' h hcl hargs hres hd hu
      obtain ⟨entry, a, op, r, hh, ha, hop, hr, hrec⟩ :=
        injectLoop_succ_inv _ fc i fc' h
      obtain ⟨nm, aT, rT, ats, body⟩ := fc
      obtain ⟨rest, hbody⟩ : ∃ rest, body = entry :: rest := by
        cases hb : body with
        | nil => rw [hb] at hh; exact Option.noConfusion hh
        | cons x xs =>
            rw [hb] at hh
            simp only [List.head?_cons, Option.some.injEq] at hh
            exact ⟨xs, by rw [hh]⟩
      subst hbody
      simp only at hcl hargs hres hd hu
      obtain ⟨hi12, -, hopres⟩ := indexOps12_get?_inv fresh hop
      have hra : r = fresh + i := by
        rw [hopres] at hr
        exact (by simpa using hr : fresh + i = r).symm
      have haentry : a ∈ entry.args := List.getElem?_mem ha
      have haf : a < fresh := hargs a (by
        rw [FuncOp.entryArgs_eq (rfl : (⟨nm, aT, rT, ats,
          entry :: rest⟩ : FuncOp).body = entry :: rest)]
        exact haentry)
      have hrne : r ≠ a := by rw [hra]; exact add_ne_of_lt haf
      have hrmem : r ∈ resultsB (entry :: rest) := by
        rw [hra]; exact hres i hi12
      have hstep := step_body_eq nm aT rT ats entry rest i a r
      refine ih _ fc' hrec ?_ ?_ ?_ ?_ ?_
      · rw [hstep]
        exact stepRegion_closed entry rest i a r ha hrne hrmem hcl
      · intro x hx
        rw [FuncOp.entryArgs_eq (hstep.trans rfl)] at hx
        exact hargs x (by
          rw [FuncOp.entryArgs_eq (rfl : (⟨nm, aT, rT, ats,
            entry :: rest⟩ : FuncOp).body = entry :: rest)]
          exact eraseIdx_subset' x hx)
      · intro j hj
        rw [hstep, stepRegion_results]
        exact hres j hj
      · intro v hv
        rw [hstep] at hv
        exact hd v (stepRegion_defs_subset entry rest i a r v hv)
      · intro v hv
        rw [hstep] at hv
        rcases stepRegion_uses entry rest i a r v hv with rfl | ⟨hw, -⟩
        · rw [hra]
          exact Nat.add_lt_add_left hi12 fresh
        · exact hu v hw

theorem insertOpInEntry_body (nm : String) (aT rT : List MType)
    (ats : List String) (entry : Block) (rest : List Block) (k : Nat)
    (c : Operation) :
    (⟨nm, aT, rT, ats, entry :: rest⟩ : FuncOp).insertOpInEntry k c =
      some ⟨nm, aT, rT, ats,
        { entry with ops := insertAt k c entry.ops } :: rest⟩ := rfl

theorem insert_region_uses (entry : Block) (rest : List Block) (k : Nat)
    (c : Operation) :
    ∀ v ∈ usesB ({ entry with ops := insertAt k c entry.ops } :: rest),
      v ∈ c.operands ∨ v ∈ usesB (entry :: rest) := by
  intro v hv
  simp only [usesB, List.flatMap_cons, Block.usesOf, List.mem_append,
    List.mem_flatMap] at hv ⊢
  rcases hv with ⟨o, ho, hvo⟩ | hv
  · rcases (mem_insertAt entry.ops k).mp ho with rfl | ho'
    · exact Or.inl hvo
    · exact Or.inr (Or.inl ⟨o, ho', hvo⟩)
  · exact Or.inr (Or.inr hv)

theorem insert_region_uses_sup (entry : Block) (rest : List Block) (k : Nat)
    (c : Operation) :
    ∀ v ∈ usesB (entry :: rest),
      v ∈ usesB ({ entry with ops := insertAt k c entry.ops } :: rest) := by
  intro v hv
  simp only [usesB, List.flatMap_cons, Block.usesOf, List.mem_append,
    List.mem_flatMap] at hv ⊢
  rcases hv with ⟨o, ho, hvo⟩ | hv
  · exact Or.inl ⟨o, (mem_insertAt entry.ops k).mpr (Or.inr ho), hvo⟩
  · exact Or.inr hv

theorem insert_region_defs (entry : Block) (rest : List Block) (k : Nat)
    (c : Operation) :
    ∀ v ∈ defsB ({ entry with ops := insertAt k c entry.ops } :: rest),
      v ∈ c.results ∨ v ∈ defsB (entry :: rest) := by
  intro v hv
  simp only [defsB, List.flatMap_cons, Block.defsOf, List.mem_append,
    List.mem_flatMap] at hv ⊢
  rcases hv with (hv | ⟨o, ho, hvo⟩) | hv
  · exact Or.inr (Or.inl (Or.inl hv))
  · rcases (mem_insertAt entry.ops k).mp ho with rfl | ho'
    · exact Or.inl hvo
    · exact Or.inr (Or.inl (Or.inr ⟨o, ho', hvo⟩))
  · exact Or.inr (Or.inr hv)

theorem insert_region_defs_sup (entry : Block) (rest : List Block) (k : Nat)
    (c : Operation) :
    ∀ v ∈ defsB (entry :: rest),
      v ∈ defsB ({ entry with ops := insertAt k c entry.ops } :: rest) := by
  intro v hv
  simp only [defsB, List.flatMap_cons, Block.defsOf, List.mem_append,
    List.mem_flatMap] at hv ⊢
  rcases hv with (hv | ⟨o, ho, hvo⟩) | hv
  · exact Or.inl (Or.inl hv)
  · exact Or.inl (Or.inr ⟨o, (mem_insertAt entry.ops k).mpr (Or.inr ho), hvo⟩)
  · exact Or.inr hv

theorem insert_region_results_mem (entry : Block) (rest : List Block)
    (k : Nat) (c : Operation) {r : Value} (hr : r ∈ c.results) :
    r ∈ resultsB ({ entry with ops := insertAt k c entry.ops } :: rest) := by
  simp only [resultsB, List.flatMap_cons, List.mem_append, List.mem_flatMap]
  exact Or.inl ⟨c, (mem_insertAt entry.ops k).mpr (Or.inl rfl), hr⟩

theorem cloneWithFresh_operands (op : Operation) (fr : Nat) :
    (cloneWithFresh op fr).1.operands = op.operands := rfl

theorem cloneWithFresh_results_bound (op : Operation) (fr : Nat) :
    ∀ v ∈ (cloneWithFresh op fr).1.results,
      fr ≤ v ∧ v < (cloneWithFresh op fr).2 := by
  intro v hv
  simp only [cloneWithFresh, List.mem_map, List.mem_range] at hv
  obtain ⟨j, hj, rfl⟩ := hv
  exact ⟨Nat.le_add_right fr j, Nat.add_lt_add_left hj fr⟩

theorem cloneWithFresh_fr_mem (op : Operation) (fr : Nat)
    (h : op.results ≠ []) : fr ∈ (cloneWithFresh op fr).1.results := by
  simp only [cloneWithFresh, List.mem_map, List.mem_range]
  exact ⟨0, List.length_pos.mpr h, rfl⟩

theorem hoistLoop_closed (defOf : Value → Option Operation)
    (operands : List Value)
    (hwf : ∀ v op, defOf v = some op → op.isConstantOp = true →
      op.operands = [] ∧ op.results ≠ []) :
    ∀ (i : Nat) (fc : FuncOp) (acc : List Value) (cl fr : Nat)
      (fc' : FuncOp) (na : List Value) (cl' fr' : Nat),
      hoistLoop defOf operands i fc acc cl fr = some (fc', na, cl', fr') →
      ClosedB fc.body →
      (∀ v ∈ defsB fc.body, v < fr) →
      (∀ v ∈ usesB fc.body, v < fr) →
      ClosedB fc'.body ∧ (∀ v ∈ defsB fc'.body, v < fr') ∧
        (∀ v ∈ usesB fc'.body, v < fr') := by
  intro i
  induction i with
  | zero =>
      intro fc acc cl fr fc' na cl' fr' h hcl hd hu
      simp only [hoistLoop, Option.some.injEq, Prod.mk.injEq] at h
      obtain ⟨h1, -, -, h4⟩ := h
      subst h1; subst h4
      exact ⟨hcl, hd, hu⟩
  | succ i ih =>
      intro fc acc cl fr fc' na cl' fr' h hcl hd hu
      obtain ⟨v, hv, hcase⟩ :=
        hoistLoop_succ_inv defOf operands i fc acc cl fr _ h
      rcases hcase with ⟨-, hrec⟩ |
        ⟨op, fc1, entry1, a, r, hdv, hco, hins, hhd, harg, hres, hrec⟩
      · exact ih _ _ _ _ _ _ _ _ hrec hcl hd hu
      · obtain ⟨hopnds, hopres⟩ := hwf v op hdv hco
        obtain ⟨nm, aT, rT, ats, body⟩ := fc
        simp only at hcl hd hu
        cases hbody : body with
        | nil =>
            rw [hbody] at hins
            exact absurd hins (by simp [FuncOp.insertOpInEntry])
        | cons e rest =>
            subst hbody
            rw [insertOpInEntry_body] at hins
            have hfc1 : fc1 = ⟨nm, aT, rT, ats,
                { e with ops := insertAt cl (cloneWithFresh op fr).1 e.ops } ::
                  rest⟩ := by
              injection hins with hinj
              exact hinj.symm
            subst hfc1
            have hentry1 : entry1 =
                { e with ops := insertAt cl (cloneWithFresh op fr).1 e.ops } := by
              simp only [List.head?_cons, Option.some.injEq] at hhd
              exact hhd.symm
            subst hentry1
            have hrfr : fr = r := by
              rw [cloneWithFresh_results_head op fr hopres] at hres
              injection hres with hinj
            subst hrfr
            -- closure and bounds for the inserted function
            have hcl1 : ClosedB
                ({ e with ops := insertAt cl (cloneWithFresh op fr).1 e.ops } ::
                  rest) := by
              intro w hw
              rcases insert_region_uses e rest cl (cloneWithFresh op fr).1 w hw
                with hw' | hw'
              · rw [cloneWithFresh_operands, hopnds] at hw'
                simp at hw'
              · exact insert_region_defs_sup e rest cl _ w (hcl w hw')
            have hfr2 : fr ≤ (cloneWithFresh op fr).2 := by
              simp [cloneWithFresh]
            have hd1 : ∀ w ∈ defsB
                ({ e with ops := insertAt cl (cloneWithFresh op fr).1 e.ops } ::
                  rest), w < (cloneWithFresh op fr).2 := by
              intro w hw
              rcases insert_region_defs e rest cl (cloneWithFresh op fr).1 w hw
                with hw' | hw'
              · exact (cloneWithFresh_results_bound op fr w hw').2
              · exact Nat.lt_of_lt_of_le (hd w hw') hfr2
            have hu1 : ∀ w ∈ usesB
                ({ e with ops := insertAt cl (cloneWithFresh op fr).1 e.ops } ::
                  rest), w < (cloneWithFresh op fr).2 := by
              intro w hw
              rcases insert_region_uses e rest cl (cloneWithFresh op fr).1 w hw
                with hw' | hw'
              · rw [cloneWithFresh_operands, hopnds] at hw'
                simp at hw'
              · exact Nat.lt_of_lt_of_le (hu w hw') hfr2
            -- the replace-and-erase step
            have hamem : a ∈ e.args := List.getElem?_mem harg
            have halt : a < fr := by
              apply hd
              simp only [defsB, List.flatMap_cons, Block.defsOf,
                List.mem_append]
              exact Or.inl (Or.inl hamem)
            have hrne : (fr : Value) ≠ a := Nat.ne_of_gt halt
            have hrmem : (fr : Value) ∈ resultsB
                ({ e with ops := insertAt cl (cloneWithFresh op fr).1 e.ops } ::
                  rest) :=
              insert_region_results_mem e rest cl _
                (cloneWithFresh_fr_mem op fr hopres)
            have hstep := step_body_eq nm aT rT ats
              { e with ops := insertAt cl (cloneWithFresh op fr).1 e.ops } rest
              i a fr
            refine ih _ _ _ _ _ _ _ _ hrec ?_ ?_ ?_
            · rw [hstep]
              exact stepRegion_closed _ rest i a fr harg hrne hrmem hcl1
            · intro w hw
              rw [hstep] at hw
              exact hd1 w (stepRegion_defs_subset _ rest i a fr w hw)
            · intro w hw
              rw [hstep] at hw
              rcases stepRegion_uses _ rest i a fr w hw with rfl | ⟨hw', -⟩
              · have := cloneWithFresh_results_bound op w w
                  (cloneWithFresh_fr_mem op w hopres)
                exact this.2
              · exact hu1 w hw'

/-! ## Lemmas about the `gpu.return` rewrite -/

/-- All `gpu.return` operations of a region are result-less (IR
wellformedness). -/
def RetOk (bs : List Block) : Prop :=
  ∀ b ∈ bs, ∀ op ∈ b.ops, op.kind = OpKind.gpuReturnOp → op.results = []

theorem rewriteReturnOp_kind_ne (op : Operation) :
    (rewriteReturnOp op).kind ≠ OpKind.gpuReturnOp := by
  by_cases h : op.kind = OpKind.gpuReturnOp <;> simp [rewriteReturnOp, h]

theorem rewrite_uses_subset (ops : List Operation) :
    ∀ v ∈ (ops.map rewriteReturnOp).flatMap Operation.operands,
      v ∈ ops.flatMap Operation.operands := by
  intro v hv
  simp only [List.mem_flatMap, List.mem_map] at hv ⊢
  obtain ⟨o', ⟨o, ho, rfl⟩, hvo⟩ := hv
  refine ⟨o, ho, ?_⟩
  by_cases h : o.kind = OpKind.gpuReturnOp
  · simp [rewriteReturnOp, h] at hvo
  · simpa [rewriteReturnOp, h] using hvo

theorem rewrite_results_eq (ops : List Operation)
    (h : ∀ op ∈ ops, op.kind = OpKind.gpuReturnOp → op.results = []) :
    (ops.map rewriteReturnOp).flatMap Operation.results =
      ops.flatMap Operation.results := by
  induction ops with
  | nil => rfl
  | cons o os ih =>
      simp only [List.map_cons, List.flatMap_cons]
      rw [ih (fun op hop hk => h op (List.mem_cons_of_mem o hop) hk)]
      congr 1
      by_cases hk : o.kind = OpKind.gpuReturnOp
      · simp [rewriteReturnOp, hk, h o (List.mem_cons_self o os) hk]
      · simp [rewriteReturnOp, hk]

theorem rewrite_region_defs (bs : List Block) (h : RetOk bs) :
    defsB (bs.map rewriteBlockReturns) = defsB bs := by
  induction bs with
  | nil => rfl
  | cons b rest ih =>
      simp only [defsB, List.map_cons, List.flatMap_cons] at ih ⊢
      rw [ih (fun b' hb' => h b' (List.mem_cons_of_mem b hb'))]
      congr 1
      simp only [rewriteBlockReturns, Block.defsOf]
      rw [rewrite_results_eq b.ops (h b (List.mem_cons_self b rest))]

theorem rewrite_region_uses (bs : List Block) :
    ∀ v ∈ usesB (bs.map rewriteBlockReturns), v ∈ usesB bs := by
  intro v hv
  simp only [usesB, List.mem_flatMap, List.mem_map] at hv ⊢
  obtain ⟨b', ⟨b, hb, rfl⟩, hvb⟩ := hv
  refine ⟨b, hb, ?_⟩
  simp only [rewriteBlockReturns, Block.usesOf] at hvb ⊢
  have := rewrite_uses_subset b.ops v (List.mem_flatMap.mpr (by
    simpa using hvb))
  simpa using this

theorem rewrite_region_closed (bs : List Block) (h : RetOk bs)
    (hcl : ClosedB bs) : ClosedB (bs.map rewriteBlockReturns) := by
  intro v hv
  rw [rewrite_region_defs bs h]
  exact hcl v (rewrite_region_uses bs v hv)

theorem retOk_map_blockMap (f : Value → Value) (bs : List Block)
    (h : RetOk bs) : RetOk (bs.map (Block.mapOperands f)) := by
  intro b hb op hop hk
  simp only [List.mem_map] at hb
  obtain ⟨b0, hb0, rfl⟩ := hb
  simp only [Block.mapOperands, List.mem_map] at hop
  obtain ⟨op0, hop0, rfl⟩ := hop
  have := h b0 hb0 op0 hop0 (by simpa using hk)
  simpa using this

theorem retOk_stepRegion (entry : Block) (rest : List Block) (i : Nat)
    (a r : Value) (h : RetOk (entry :: rest)) :
    RetOk (stepRegion entry rest i a r) := by
  intro b hb op hop hk
  simp only [stepRegion, List.mem_cons] at hb
  rcases hb with rfl | hb
  · simp only [List.mem_map] at hop
    obtain ⟨op0, hop0, rfl⟩ := hop
    have := h entry (List.mem_cons_self entry rest) op0 hop0 (by simpa using hk)
    simpa using this
  · exact retOk_map_blockMap _ rest
      (fun b' hb' => h b' (List.mem_cons_of_mem entry hb')) b hb op hop hk

theorem injectLoop_retOk (indexOps : List Operation) :
    ∀ (i : Nat) (fc fc' : FuncOp),
      injectLoop indexOps fc i = some fc' → RetOk fc.body → RetOk fc'.body := by
  intro i
  induction i with
  | zero =>
      intro fc fc' h hret
      simp only [injectLoop, Option.some.injEq] at h
      subst h
      exact hret
  | succ i ih =>
      intro fc fc' h hret
      obtain ⟨entry, a, op, r, hh, ha, hop, hr, hrec⟩ :=
        injectLoop_succ_inv _ fc i fc' h
      obtain ⟨nm, aT, rT, ats, body⟩ := fc
      obtain ⟨rest, hbody⟩ : ∃ rest, body = entry :: rest := by
        cases hb : body with
        | nil => rw [hb] at hh; exact Option.noConfusion hh
        | cons x xs =>
            rw [hb] at hh
            simp only [List.head?_cons, Option.some.injEq] at hh
            exact ⟨xs, by rw [hh]⟩
      subst hbody
      simp only at hret
      refine ih _ fc' hrec ?_
      rw [step_body_eq]
      exact retOk_stepRegion entry rest i a r hret

theorem injectLoop_preserves (indexOps : List Operation) :
    ∀ (i : Nat) (fc fc' : FuncOp),
      injectLoop indexOps fc i = some fc' →
      fc'.name = fc.name ∧ fc'.attrs = fc.attrs ∧
      fc'.argTypes = fc.argTypes ∧ fc'.resultTypes = fc.resultTypes := by
  intro i
  induction i with
  | zero =>
      intro fc fc' h
      simp only [injectLoop, Option.some.injEq] at h
      subst h
      exact ⟨rfl, rfl, rfl, rfl⟩
  | succ i ih =>
      intro fc fc' h
      obtain ⟨entry, a, op, r, -, -, -, -, hrec⟩ :=
        injectLoop_succ_inv _ fc i fc' h
      obtain ⟨e1, e2, e3, e4⟩ := ih _ fc' hrec
      obtain ⟨r1, r2, r3, r4⟩ := FuncOp.replaceAllUsesWith_fields fc a r
      obtain ⟨g1, g2, g3, g4⟩ :=
        FuncOp.eraseArg_fields (fc.replaceAllUsesWith a r) i
      exact ⟨by rw [e1, g1, r1], by rw [e2, g2, r2], by rw [e3, g3, r3],
        by rw [e4, g4, r4]⟩

theorem indexOps12_results_mem (fresh : Nat) {v : Value}
    (hv : v ∈ (indexOps12 fresh).flatMap Operation.results) :
    ∃ j, j < 12 ∧ v = fresh + j := by
  simp only [indexOps12, mkIndexOp, List.flatMap_cons, List.flatMap_nil,
    List.append_nil, List.cons_append, List.nil_append, List.mem_cons,
    List.mem_singleton, List.not_mem_nil, or_false] at hv
  rcases hv with rfl | rfl | rfl | rfl | rfl | rfl | rfl | rfl | rfl | rfl |
    rfl | rfl
  · exact ⟨0, by decide, rfl⟩
  · exact ⟨1, by decide, rfl⟩
  · exact ⟨2, by decide, rfl⟩
  · exact ⟨3, by decide, rfl⟩
  · exact ⟨4, by decide, rfl⟩
  · exact ⟨5, by decide, rfl⟩
  · exact ⟨6, by decide, rfl⟩
  · exact ⟨7, by decide, rfl⟩
  · exact ⟨8, by decide, rfl⟩
  · exact ⟨9, by decide, rfl⟩
  · exact ⟨10, by decide, rfl⟩
  · exact ⟨11, by decide, rfl⟩

theorem indexOps12_results_mem_of_lt (fresh : Nat) {j : Nat} (hj : j < 12) :
    (fresh + j) ∈ (indexOps12 fresh).flatMap Operation.results := by
  interval_cases j <;> simp [indexOps12, mkIndexOp]

theorem indexOps12_not_gpuReturn (fresh : Nat) {op : Operation}
    (hop : op ∈ indexOps12 fresh) : op.kind ≠ OpKind.gpuReturnOp := by
  simp only [indexOps12, mkIndexOp, List.mem_cons, List.mem_singleton,
    List.not_mem_nil, or_false] at hop
  rcases hop with rfl | rfl | rfl | rfl | rfl | rfl | rfl | rfl | rfl | rfl |
    rfl | rfl <;> simp

theorem indexOps12_operands_nil (fresh : Nat) {op : Operation}
    (hop : op ∈ indexOps12 fresh) : op.operands = [] := by
  simp only [indexOps12, mkIndexOp, List.mem_cons, List.mem_singleton,
    List.not_mem_nil, or_false] at hop
  rcases hop with rfl | rfl | rfl | rfl | rfl | rfl | rfl | rfl | rfl | rfl |
    rfl | rfl <;> simp

theorem prepend_region_uses (fresh : Nat) (entry : Block) (rest : List Block) :
    usesB ({ entry with ops := indexOps12 fresh ++ entry.ops } :: rest) =
      usesB (entry :: rest) := by
  simp only [usesB, List.flatMap_cons, Block.usesOf, List.flatMap_append]
  congr 1

theorem prepend_region_defs (fresh : Nat) (entry : Block) (rest : List Block) :
    ∀ v ∈ defsB ({ entry with ops := indexOps12 fresh ++ entry.ops } :: rest),
      (∃ j, j < 12 ∧ v = fresh + j) ∨ v ∈ defsB (entry :: rest) := by
  intro v hv
  simp only [defsB, List.flatMap_cons, Block.defsOf, List.mem_append,
    List.flatMap_append] at hv
  rcases hv with (hv | hv | hv) | hv
  · exact Or.inr (by
      simp only [defsB, List.flatMap_cons, Block.defsOf, List.mem_append]
      exact Or.inl (Or.inl hv))
  · exact Or.inl (indexOps12_results_mem fresh hv)
  · exact Or.inr (by
      simp only [defsB, List.flatMap_cons, Block.defsOf, List.mem_append]
      exact Or.inl (Or.inr hv))
  · exact Or.inr (by
      simp only [defsB, List.flatMap_cons, Block.defsOf, List.mem_append]
      exact Or.inr hv)

theorem prepend_region_defs_sup (fresh : Nat) (entry : Block)
    (rest : List Block) :
    ∀ v ∈ defsB (entry :: rest),
      v ∈ defsB ({ entry with ops := indexOps12 fresh ++ entry.ops } :: rest) := by
  intro v hv
  simp only [defsB, List.flatMap_cons, Block.defsOf, List.mem_append,
    List.flatMap_append] at hv ⊢
  rcases hv with (hv | hv) | hv
  · exact Or.inl (Or.inl hv)
  · exact Or.inl (Or.inr (Or.inr hv))
  · exact Or.inr hv

theorem prepend_region_results (fresh : Nat) (entry : Block)
    (rest : List Block) {j : Nat} (hj : j < 12) :
    (fresh + j) ∈
      resultsB ({ entry with ops := indexOps12 fresh ++ entry.ops } :: rest) := by
  simp only [resultsB, List.flatMap_cons, List.mem_append, List.flatMap_append]
  exact Or.inl (Or.inl (indexOps12_results_mem_of_lt fresh hj))

theorem prepend_region_retOk (fresh : Nat) (entry : Block) (rest : List Block)
    (h : RetOk (entry :: rest)) :
    RetOk ({ entry with ops := indexOps12 fresh ++ entry.ops } :: rest) := by
  intro b hb op hop hk
  rcases List.mem_cons.mp hb with rfl | hb'
  · simp only [List.mem_append] at hop
    rcases hop with hop | hop
    · exact absurd hk (indexOps12_not_gpuReturn fresh hop)
    · exact h entry (List.mem_cons_self entry rest) op hop hk
  · exact h b (List.mem_cons_of_mem entry hb') op hop hk

theorem injectGpuIndexOperations_closed (nm : String) (aT rT : List MType)
    (ats : List String) (body : List Block) (fresh : Nat)
    (F : FuncOp) (fr' : Nat)
    (h : injectGpuIndexOperations ⟨nm, aT, rT, ats, body⟩ fresh = some (F, fr'))
    (hcl : ClosedB body) (hd : ∀ v ∈ defsB body, v < fresh)
    (hu : ∀ v ∈ usesB body, v < fresh) (hret : RetOk body) :
    ClosedB F.body ∧ (∀ v ∈ defsB F.body, v < fresh + 12) ∧
      (∀ v ∈ usesB F.body, v < fresh + 12) ∧ RetOk F.body ∧
      fr' = fresh + 12 := by
  unfold injectGpuIndexOperations at h
  cases hbody : body with
  | nil => rw [hbody] at h; exact absurd h (by simp)
  | cons entry rest =>
      subst hbody
      simp only [createForAllDimensions_chain] at h
      cases hloop : injectLoop (indexOps12 fresh)
          ⟨nm, aT, rT, ats,
           { entry with ops := indexOps12 fresh ++ entry.ops } :: rest⟩ 12 with
      | none => rw [hloop] at h; exact absurd h (by simp)
      | some F0 =>
          rw [hloop] at h
          simp only [Option.some.injEq, Prod.mk.injEq] at h
          obtain ⟨h1, h2⟩ := h
          subst h1
          have hprep := prepend_region_uses fresh entry rest
          have hout := injectLoop_closed fresh 12 _ F0 hloop
            (by
              intro w hw
              rw [hprep] at hw
              exact prepend_region_defs_sup fresh entry rest w (hcl w hw))
            (by
              intro x hx
              rw [FuncOp.entryArgs_eq (rfl : (⟨nm, aT, rT, ats,
                { entry with ops := indexOps12 fresh ++ entry.ops } ::
                  rest⟩ : FuncOp).body = _)] at hx
              apply hd
              simp only [defsB, List.flatMap_cons, Block.defsOf,
                List.mem_append]
              exact Or.inl (Or.inl hx))
            (fun j hj => prepend_region_results fresh entry rest hj)
            (by
              intro w hw
              rcases prepend_region_defs fresh entry rest w hw with
                ⟨j, hj, rfl⟩ | hw'
              · exact Nat.add_lt_add_left hj fresh
              · exact Nat.lt_of_lt_of_le (hd w hw') (Nat.le_add_right _ _))
            (by
              intro w hw
              rw [hprep] at hw
              exact Nat.lt_of_lt_of_le (hu w hw) (Nat.le_add_right _ _))
          have hret0 := injectLoop_retOk (indexOps12 fresh) 12 _ F0 hloop
            (prepend_region_retOk fresh entry rest hret)
          exact ⟨hout.1, hout.2.1, hout.2.2, hret0, h2.symm⟩

/-! ## Lemmas about `outlineKernelFunc` and the per-launch pipeline -/

theorem outlineKernelFunc_eq (typeOf : Value → MType) (hostName : String)
    (l : LaunchOp) (fresh : Nat) :
    outlineKernelFunc typeOf hostName l fresh =
      match injectGpuIndexOperations
          ⟨hostName ++ "_kernel", l.kernelOperands.map typeOf, [],
           [kernelAttrName], l.body⟩ fresh with
      | none => none
      | some (fc, fr') =>
          some (fc.rewriteAllReturns, { l with body := [] }, fr') := rfl

theorem rewriteAllReturns_fields (fc : FuncOp) :
    (fc.rewriteAllReturns).name = fc.name ∧
    (fc.rewriteAllReturns).attrs = fc.attrs ∧
    (fc.rewriteAllReturns).argTypes = fc.argTypes ∧
    (fc.rewriteAllReturns).resultTypes = fc.resultTypes :=
  ⟨rfl, rfl, rfl, rfl⟩

theorem injectGpuIndexOperations_preserves (fc : FuncOp) (fresh : Nat)
    (F : FuncOp) (fr' : Nat)
    (h : injectGpuIndexOperations fc fresh = some (F, fr')) :
    F.name = fc.name ∧ F.attrs = fc.attrs ∧
    F.argTypes = fc.argTypes ∧ F.resultTypes = fc.resultTypes := by
  unfold injectGpuIndexOperations at h
  cases hb : fc.body with
  | nil => rw [hb] at h; exact absurd h (by simp)
  | cons entry rest =>
      rw [hb] at h
      simp only [createForAllDimensions_chain] at h
      cases hloop : injectLoop (indexOps12 fresh)
          { fc with body :=
              { entry with ops := indexOps12 fresh ++ entry.ops } :: rest } 12 with
      | none => rw [hloop] at h; exact absurd h (by simp)
      | some F0 =>
          rw [hloop] at h
          simp only [Option.some.injEq, Prod.mk.injEq] at h
          obtain ⟨h1, -⟩ := h
          subst h1
          have hp := injectLoop_preserves (indexOps12 fresh) 12 _ F0 hloop
          exact hp

theorem outlineKernelFunc_closed (typeOf : Value → MType) (hostName : String)
    (l : LaunchOp) (fresh : Nat) (K : FuncOp) (l' : LaunchOp) (fr' : Nat)
    (h : outlineKernelFunc typeOf hostName l fresh = some (K, l', fr'))
    (hcl : ClosedB l.body) (hd : ∀ v ∈ defsB l.body, v < fresh)
    (hu : ∀ v ∈ usesB l.body, v < fresh) (hret : RetOk l.body) :
    ClosedB K.body ∧ (∀ v ∈ defsB K.body, v < fresh + 12) ∧
      (∀ v ∈ usesB K.body, v < fresh + 12) ∧ fr' = fresh + 12 := by
  rw [outlineKernelFunc_eq] at h
  cases hinj : injectGpuIndexOperations
      ⟨hostName ++ "_kernel", l.kernelOperands.map typeOf, [],
       [kernelAttrName], l.body⟩ fresh with
  | none => rw [hinj] at h; exact absurd h (by simp)
  | some p =>
      obtain ⟨F, fr0⟩ := p
      rw [hinj] at h
      simp only [Option.some.injEq, Prod.mk.injEq] at h
      obtain ⟨h1, -, h3⟩ := h
      subst h1
      obtain ⟨hFcl, hFd, hFu, hFret, hFr⟩ :=
        injectGpuIndexOperations_closed _ _ _ _ l.body fresh F fr0 hinj
          hcl hd hu hret
      have hbody : (F.rewriteAllReturns).body = F.body.map rewriteBlockReturns :=
        rfl
      refine ⟨?_, ?_, ?_, by rw [← h3, hFr]⟩
      · rw [hbody]
        exact rewrite_region_closed F.body hFret hFcl
      · intro v hv
        rw [hbody, rewrite_region_defs F.body hFret] at hv
        exact hFd v hv
      · intro v hv
        rw [hbody] at hv
        exact hFu v (rewrite_region_uses F.body v hv)

theorem convertToLaunchFuncOp_closed (defOf : Value → Option Operation)
    (l : LaunchOp) (kf : FuncOp) (fr : Nat) (kf' : FuncOp) (L : LaunchFuncOp)
    (fr' : Nat)
    (hwf : ∀ v op, defOf v = some op → op.isConstantOp = true →
      op.operands = [] ∧ op.results ≠ [])
    (h : convertToLaunchFuncOp defOf l kf fr = some (kf', L, fr'))
    (hcl : ClosedB kf.body) (hd : ∀ v ∈ defsB kf.body, v < fr)
    (hu : ∀ v ∈ usesB kf.body, v < fr) :
    ClosedB kf'.body := by
  unfold convertToLaunchFuncOp at h
  cases hb : kf.body.head? with
  | none => rw [inlineConstants, hb] at h; exact absurd h (by simp)
  | some entry0 =>
      cases hloop : hoistLoop defOf l.kernelOperands l.kernelOperands.length
          kf [] 0 fr with
      | none =>
          rw [inlineConstants, hb] at h
          simp [hloop] at h
      | some q =>
          obtain ⟨fc, newArgs, cl', fr₂⟩ := q
          have hclosed := hoistLoop_closed defOf l.kernelOperands hwf
            _ _ _ _ _ _ _ _ _ hloop hcl hd hu
          rw [inlineConstants_eq_of_loop defOf kf
            { callee := kf.name, gridSize := l.gridSize,
              blockSize := l.blockSize,
              kernelOperands := l.kernelOperands } fr entry0 hb fc newArgs
            cl' fr₂ hloop] at h
          by_cases hlen : newArgs.length = l.kernelOperands.length
          · rw [if_pos hlen] at h
            simp only [Option.some.injEq, Prod.mk.injEq] at h
            obtain ⟨h1, -⟩ := h
            rw [← h1]
            exact hclosed.1
          · rw [if_neg hlen] at h
            cases hhd : fc.body.head? with
            | none => rw [hhd] at h; exact absurd h (by simp)
            | some entry1 =>
                rw [hhd] at h
                simp only [Option.some.injEq, Prod.mk.injEq] at h
                obtain ⟨h1, -⟩ := h
                rw [← h1]
                exact hclosed.1

theorem outlineOneLaunch_closed (typeOf : Value → MType)
    (defOf : Value → Option Operation) (taken : List String)
    (hostName : String) (l : LaunchOp) (fresh : Nat) (L : LaunchFuncOp)
    (declStub : FuncOp) (kmod : KernelModule) (fr' : Nat)
    (hwf : ∀ v op, defOf v = some op → op.isConstantOp = true →
      op.operands = [] ∧ op.results ≠ [])
    (h : outlineOneLaunch typeOf defOf taken hostName l fresh =
      some (L, declStub, kmod, fr'))
    (hcl : ClosedB l.body) (hd : ∀ v ∈ defsB l.body, v < fresh)
    (hu : ∀ v ∈ usesB l.body, v < fresh) (hret : RetOk l.body) :
    ∀ f ∈ kmod.funcs, FuncOp.Closed f := by
  unfold outlineOneLaunch at h
  cases hout : outlineKernelFunc typeOf hostName l fresh with
  | none => rw [hout] at h; exact absurd h (by simp)
  | some p =>
      obtain ⟨K, le, fr1⟩ := p
      rw [hout] at h
      simp only [Option.bind_eq_bind, Option.some_bind] at h
      obtain ⟨hKcl, hKd, hKu, hfr1⟩ :=
        outlineKernelFunc_closed typeOf hostName l fresh K le fr1 hout
          hcl hd hu hret
      cases hconv : convertToLaunchFuncOp defOf l
          { K with name := freshName taken K.name } fr1 with
      | none => rw [hconv] at h; exact absurd h (by simp)
      | some q =>
          obtain ⟨K2, newL, fr2⟩ := q
          rw [hconv] at h
          simp only [Option.pure_def, Option.some_bind, Option.some.injEq,
            Prod.mk.injEq] at h
          obtain ⟨-, -, h3, -⟩ := h
          intro f hf
          rw [← h3] at hf
          have hf2 : f = K2 := by simpa using hf
          subst hf2
          have hK2 := convertToLaunchFuncOp_closed defOf l
            { K with name := freshName taken K.name } fr1 f newL fr2 hwf hconv
            (by simpa using hKcl)
            (by simpa [hfr1] using hKd)
            (by simpa [hfr1] using hKu)
          exact hK2

theorem outlineKernelFunc_fields (typeOf : Value → MType) (hostName : String)
    (l : LaunchOp) (fresh : Nat) (K : FuncOp) (l' : LaunchOp) (fr' : Nat)
    (h : outlineKernelFunc typeOf hostName l fresh = some (K, l', fr')) :
    K.name = hostName ++ "_kernel" ∧ K.argTypes = l.kernelOperands.map typeOf ∧
    K.resultTypes = [] ∧ K.attrs = [kernelAttrName] ∧
    l' = { l with body := [] } := by
  rw [outlineKernelFunc_eq] at h
  cases hinj : injectGpuIndexOperations
      ⟨hostName ++ "_kernel", l.kernelOperands.map typeOf, [],
       [kernelAttrName], l.body⟩ fresh with
  | none => rw [hinj] at h; exact absurd h (by simp)
  | some p =>
      obtain ⟨F, fr0⟩ := p
      rw [hinj] at h
      simp only [Option.some.injEq, Prod.mk.injEq] at h
      obtain ⟨h1, h2, -⟩ := h
      subst h1
      obtain ⟨p1, p2, p3, p4⟩ :=
        injectGpuIndexOperations_preserves _ fresh F fr0 hinj
      obtain ⟨r1, r2, r3, r4⟩ := rewriteAllReturns_fields F
      exact ⟨by rw [r1, p1], by rw [r3, p3], by rw [r4, p4],
        by rw [r2, p2], h2.symm⟩

theorem outlineOneLaunch_fields (typeOf : Value → MType)
    (defOf : Value → Option Operation) (taken : List String)
    (hostName : String) (l : LaunchOp) (fresh : Nat) (L : LaunchFuncOp)
    (declStub : FuncOp) (kmod : KernelModule) (fr' : Nat)
    (h : outlineOneLaunch typeOf defOf taken hostName l fresh =
      some (L, declStub, kmod, fr')) :
    L.gridSize = l.gridSize ∧ L.blockSize = l.blockSize ∧
    L.callee = declStub.name ∧ declStub.body = [] ∧
    kmod.attrs = [kernelModuleAttrName] ∧
    (∃ kfn, kmod.funcs = [kfn] ∧ kfn.name = declStub.name ∧
      kernelAttrName ∈ kfn.attrs ∧ declStub.attrs = kfn.attrs) ∧
    declStub.name = freshName taken (hostName ++ "_kernel") ∧
    kernelAttrName ∈ declStub.attrs := by
  unfold outlineOneLaunch at h
  cases hout : outlineKernelFunc typeOf hostName l fresh with
  | none => rw [hout] at h; exact absurd h (by simp)
  | some p =>
      obtain ⟨K, le, fr1⟩ := p
      rw [hout] at h
      simp only [Option.bind_eq_bind, Option.some_bind] at h
      obtain ⟨hnm, -, -, hattrsK, -⟩ :=
        outlineKernelFunc_fields typeOf hostName l fresh K le fr1 hout
      cases hconv : convertToLaunchFuncOp defOf l
          { K with name := freshName taken K.name } fr1 with
      | none => rw [hconv] at h; exact absurd h (by simp)
      | some q =>
          obtain ⟨K2, newL, fr2⟩ := q
          rw [hconv] at h
          simp only [Option.pure_def, Option.some_bind, Option.some.injEq,
            Prod.mk.injEq] at h
          obtain ⟨hL, hstub, hkmod, hfr⟩ := h
          obtain ⟨c1, c2, c3, c4, c5⟩ := convertToLaunchFuncOp_fields defOf l
            { K with name := freshName taken K.name } fr1 K2 newL fr2 hconv
          refine ⟨?_, ?_, ?_, ?_, ?_, ?_, ?_, ?_⟩
          · rw [← hL, c1]
          · rw [← hL, c2]
          · rw [← hL, ← hstub, c3, c4]
          · rw [← hstub]
          · rw [← hkmod]
          · refine ⟨K2, by rw [← hkmod], by rw [← hstub, c4], ?_, ?_⟩
            · rw [c5]
              simp [hattrsK]
            · rw [← hstub, c5]
          · rw [← hstub, c4]
            simp [hnm]
          · rw [← hstub, c5]
            simp [hattrsK]

theorem processHostOps_nolaunch (typeOf : Value → MType)
    (defOf : Value → Option Operation) (hostName : String) :
    ∀ (ops : List HostOp) (taken : List String) (fr : Nat),
      (∀ l, HostOp.launch l ∉ ops) →
      processHostOps typeOf defOf hostName ops taken fr =
        some (ops, [], taken, fr) := by
  intro ops
  induction ops with
  | nil => intro taken fr _; rfl
  | cons op rest ih =>
      intro taken fr hnl
      have hrest : ∀ l, HostOp.launch l ∉ rest := fun l hl =>
        hnl l (List.mem_cons_of_mem _ hl)
      cases op with
      | launch l => exact absurd (List.mem_cons_self _ _) (hnl l)
      | plain o => simp [processHostOps, ih taken fr hrest]
      | launchCall c => simp [processHostOps, ih taken fr hrest]

theorem processHostOps_launch_cons (typeOf : Value → MType)
    (defOf : Value → Option Operation) (hostName : String) (l : LaunchOp)
    (rest : List HostOp) (taken : List String) (fr : Nat) :
    processHostOps typeOf defOf hostName (HostOp.launch l :: rest) taken fr =
      match outlineOneLaunch typeOf defOf taken hostName l fr with
      | none => none
      | some (newLaunch, declStub, kernelModule, fr1) =>
          match processHostOps typeOf defOf hostName rest
              (taken ++ [declStub.name]) fr1 with
          | none => none
          | some (rest', items, taken', fr2) =>
              some (HostOp.launchCall newLaunch :: rest',
                ModuleItem.kfunc declStub :: ModuleItem.kmod kernelModule ::
                  items, taken', fr2) := by
  cases hone : outlineOneLaunch typeOf defOf taken hostName l fr with
  | none => simp [processHostOps, hone]
  | some q =>
      obtain ⟨newLaunch, declStub, kernelModule, fr1⟩ := q
      cases hrest : processHostOps typeOf defOf hostName rest
          (taken ++ [declStub.name]) fr1 with
      | none => simp [processHostOps, hone, hrest]
      | some r =>
          obtain ⟨rest', items, taken', fr2⟩ := r
          simp [processHostOps, hone, hrest]

theorem processHostOps_plain_cons (typeOf : Value → MType)
    (defOf : Value → Option Operation) (hostName : String) (o : Operation)
    (rest : List HostOp) (taken : List String) (fr : Nat) :
    processHostOps typeOf defOf hostName (HostOp.plain o :: rest) taken fr =
      match processHostOps typeOf defOf hostName rest taken fr with
      | none => none
      | some (rest', items, taken', fr1) =>
          some (HostOp.plain o :: rest', items, taken', fr1) := by
  cases hrest : processHostOps typeOf defOf hostName rest taken fr with
  | none => simp [processHostOps, hrest]
  | some r =>
      obtain ⟨rest', items, taken', fr1⟩ := r
      simp [processHostOps, hrest]

theorem processHostOps_launchCall_cons (typeOf : Value → MType)
    (defOf : Value → Option Operation) (hostName : String) (c : LaunchFuncOp)
    (rest : List HostOp) (taken : List String) (fr : Nat) :
    processHostOps typeOf defOf hostName (HostOp.launchCall c :: rest) taken
        fr =
      match processHostOps typeOf defOf hostName rest taken fr with
      | none => none
      | some (rest', items, taken', fr1) =>
          some (HostOp.launchCall c :: rest', items, taken', fr1) := by
  cases hrest : processHostOps typeOf defOf hostName rest taken fr with
  | none => simp [processHostOps, hrest]
  | some r =>
      obtain ⟨rest', items, taken', fr1⟩ := r
      simp [processHostOps, hrest]

theorem processHostOps_launch_step (typeOf : Value → MType)
    (defOf : Value → Option Operation) (hostName : String) (l : LaunchOp)
    (rest : List HostOp) (taken : List String) (fr : Nat) (L : LaunchFuncOp)
    (declStub : FuncOp) (kmod : KernelModule) (fr1 : Nat)
    (rest' : List HostOp) (items : List ModuleItem) (taken' : List String)
    (fr2 : Nat)
    (hone : outlineOneLaunch typeOf defOf taken hostName l fr =
      some (L, declStub, kmod, fr1))
    (hrest : processHostOps typeOf defOf hostName rest
      (taken ++ [declStub.name]) fr1 = some (rest', items, taken', fr2)) :
    processHostOps typeOf defOf hostName (HostOp.launch l :: rest) taken fr =
      some (HostOp.launchCall L :: rest',
        ModuleItem.kfunc declStub :: ModuleItem.kmod kmod :: items,
        taken', fr2) := by
  simp [processHostOps, hone, hrest]

theorem processHostOps_single_launch (typeOf : Value → MType)
    (defOf : Value → Option Operation) (hostName : String) :
    ∀ (pre : List HostOp) (post : List HostOp) (l : LaunchOp)
      (taken : List String) (fr : Nat) (ops' : List HostOp)
      (items : List ModuleItem) (tk : List String) (fr₂ : Nat),
      (∀ l', HostOp.launch l' ∉ pre) → (∀ l', HostOp.launch l' ∉ post) →
      processHostOps typeOf defOf hostName (pre ++ HostOp.launch l :: post)
        taken fr = some (ops', items, tk, fr₂) →
      ∃ L declStub kmod,
        outlineOneLaunch typeOf defOf taken hostName l fr =
          some (L, declStub, kmod, fr₂) ∧
        ops' = pre ++ HostOp.launchCall L :: post ∧
        items = [ModuleItem.kfunc declStub, ModuleItem.kmod kmod] ∧
        tk = taken ++ [declStub.name] := by
  intro pre
  induction pre with
  | nil =>
      intro post l taken fr ops' items tk fr₂ _ hpost h
      simp only [List.nil_append] at h ⊢
      cases hone : outlineOneLaunch typeOf defOf taken hostName l fr with
      | none => rw [processHostOps, hone] at h; exact absurd h (by simp)
      | some q =>
          obtain ⟨L, declStub, kmod, fr1⟩ := q
          rw [processHostOps_launch_step typeOf defOf hostName l post taken fr
            L declStub kmod fr1 post [] (taken ++ [declStub.name]) fr1 hone
            (processHostOps_nolaunch typeOf defOf hostName post _ _ hpost)]
            at h
          simp only [Option.some.injEq, Prod.mk.injEq] at h
          obtain ⟨h1, h2, h3, h4⟩ := h
          exact ⟨L, declStub, kmod, by rw [← h4], by rw [← h1], by rw [← h2],
            by rw [← h3]⟩
  | cons op pre ih =>
      intro post l taken fr ops' items tk fr₂ hpre hpost h
      have hpre' : ∀ l', HostOp.launch l' ∉ pre := fun l' hl =>
        hpre l' (List.mem_cons_of_mem _ hl)
      have hopne : ∀ l', op ≠ HostOp.launch l' := fun l' he =>
        hpre l' (he ▸ List.mem_cons_self _ _)
      cases op with
      | launch l0 => exact absurd rfl (hopne l0)
      | plain o =>
          rw [List.cons_append, processHostOps_plain_cons] at h
          cases hrec : processHostOps typeOf defOf hostName
              (pre ++ HostOp.launch l :: post) taken fr with
          | none => rw [hrec] at h; exact absurd h (by simp)
          | some q =>
              obtain ⟨rest', items0, taken0, fr0⟩ := q
              rw [hrec] at h
              simp only [Option.some.injEq, Prod.mk.injEq] at h
              obtain ⟨h1, h2, h3, h4⟩ := h
              obtain ⟨L, declStub, kmod, ho, he1, he2, he3⟩ :=
                ih post l taken fr rest' items0 taken0 fr0 hpre' hpost hrec
              refine ⟨L, declStub, kmod, by rw [← h4]; exact ho, ?_, ?_, ?_⟩
              · rw [← h1, he1, List.cons_append]
              · rw [← h2, he2]
              · rw [← h3, he3]
      | launchCall c =>
          rw [List.cons_append, processHostOps_launchCall_cons] at h
          cases hrec : processHostOps typeOf defOf hostName
              (pre ++ HostOp.launch l :: post) taken fr with
          | none => rw [hrec] at h; exact absurd h (by simp)
          | some q =>
              obtain ⟨rest', items0, taken0, fr0⟩ := q
              rw [hrec] at h
              simp only [Option.some.injEq, Prod.mk.injEq] at h
              obtain ⟨h1, h2, h3, h4⟩ := h
              obtain ⟨L, declStub, kmod, ho, he1, he2, he3⟩ :=
                ih post l taken fr rest' items0 taken0 fr0 hpre' hpost hrec
              refine ⟨L, declStub, kmod, by rw [← h4]; exact ho, ?_, ?_, ?_⟩
              · rw [← h1, he1, List.cons_append]
              · rw [← h2, he2]
              · rw [← h3, he3]

/-- The property every module item inserted by the pass driver satisfies: it
is either a body-less kernel-tagged declaration, or a kernel module holding
exactly one kernel-tagged function. -/
def InsertedItemOk (it : ModuleItem) : Prop :=
  (∃ f, it = ModuleItem.kfunc f ∧ f.body = [] ∧ kernelAttrName ∈ f.attrs) ∨
  (∃ km, it = ModuleItem.kmod km ∧ km.attrs = [kernelModuleAttrName] ∧
    ∃ kfn, km.funcs = [kfn] ∧ kernelAttrName ∈ kfn.attrs)

theorem processHostOps_items (typeOf : Value → MType)
    (defOf : Value → Option Operation) (hostName : String) :
    ∀ (ops : List HostOp) (taken : List String) (fr : Nat)
      (ops' : List HostOp) (items : List ModuleItem) (tk : List String)
      (fr₂ : Nat),
      processHostOps typeOf defOf hostName ops taken fr =
        some (ops', items, tk, fr₂) →
      ∀ it ∈ items, InsertedItemOk it := by
  intro ops
  induction ops with
  | nil =>
      intro taken fr ops' items tk fr₂ h it hit
      simp only [processHostOps, Option.some.injEq, Prod.mk.injEq] at h
      obtain ⟨-, h2, -, -⟩ := h
      rw [← h2] at hit
      simp at hit
  | cons op rest ih =>
      intro taken fr ops' items tk fr₂ h it hit
      cases op with
      | plain o =>
          rw [processHostOps_plain_cons] at h
          cases hrec : processHostOps typeOf defOf hostName rest taken fr with
          | none => rw [hrec] at h; exact absurd h (by simp)
          | some q =>
              obtain ⟨rest', items0, tk0, fr0⟩ := q
              rw [hrec] at h
              simp only [Option.some.injEq, Prod.mk.injEq] at h
              obtain ⟨-, h2, -, -⟩ := h
              rw [← h2] at hit
              exact ih taken fr rest' items0 tk0 fr0 hrec it hit
      | launchCall c =>
          rw [processHostOps_launchCall_cons] at h
          cases hrec : processHostOps typeOf defOf hostName rest taken fr with
          | none => rw [hrec] at h; exact absurd h (by simp)
          | some q =>
              obtain ⟨rest', items0, tk0, fr0⟩ := q
              rw [hrec] at h
              simp only [Option.some.injEq, Prod.mk.injEq] at h
              obtain ⟨-, h2, -, -⟩ := h
              rw [← h2] at hit
              exact ih taken fr rest' items0 tk0 fr0 hrec it hit
      | launch l =>
          cases hone : outlineOneLaunch typeOf defOf taken hostName l fr with
          | none => rw [processHostOps, hone] at h; exact absurd h (by simp)
          | some q =>
              obtain ⟨L, declStub, kmod, fr1⟩ := q
              cases hrec : processHostOps typeOf defOf hostName rest
                  (taken ++ [declStub.name]) fr1 with
              | none =>
                  rw [processHostOps, hone] at h
                  simp [hrec] at h
              | some r =>
                  obtain ⟨rest', items0, tk0, fr0⟩ := r
                  rw [processHostOps_launch_step typeOf defOf hostName l rest
                    taken fr L declStub kmod fr1 rest' items0 tk0 fr0 hone
                    hrec] at h
                  simp only [Option.some.injEq, Prod.mk.injEq] at h
                  obtain ⟨-, h2, -, -⟩ := h
                  rw [← h2] at hit
                  obtain ⟨-, -, -, g4, g5, ⟨kfn, k1, -, k3, -⟩, -, g7⟩ :=
                    outlineOneLaunch_fields typeOf defOf taken hostName l fr L
                      declStub kmod fr1 hone
                  rcases List.mem_cons.mp hit with rfl | hit
                  · exact Or.inl ⟨declStub, rfl, g4, g7⟩
                  rcases List.mem_cons.mp hit with rfl | hit
                  · exact Or.inr ⟨kmod, rfl, g5, kfn, k1, k3⟩
                  · exact ih (taken ++ [declStub.name]) fr1 rest' items0 tk0
                      fr0 hrec it hit

theorem processHostBlocks_items (typeOf : Value → MType)
    (defOf : Value → Option Operation) (hostName : String) :
    ∀ (bs : List HostBlock) (taken : List String) (fr : Nat)
      (bs' : List HostBlock) (items : List ModuleItem) (tk : List String)
      (fr₂ : Nat),
      processHostBlocks typeOf defOf hostName bs taken fr =
        some (bs', items, tk, fr₂) →
      ∀ it ∈ items, InsertedItemOk it := by
  intro bs
  induction bs with
  | nil =>
      intro taken fr bs' items tk fr₂ h it hit
      simp only [processHostBlocks, Option.some.injEq, Prod.mk.injEq] at h
      obtain ⟨-, h2, -, -⟩ := h
      rw [← h2] at hit
      simp at hit
  | cons b rest ih =>
      intro taken fr bs' items tk fr₂ h it hit
      cases hops : processHostOps typeOf defOf hostName b.ops taken fr with
      | none =>
          rw [processHostBlocks, hops] at h
          exact absurd h (by simp)
      | some q =>
          obtain ⟨ops', items0, tk0, fr0⟩ := q
          cases hrec : processHostBlocks typeOf defOf hostName rest tk0
              fr0 with
          | none =>
              rw [processHostBlocks, hops] at h
              simp [hrec] at h
          | some r =>
              obtain ⟨rest', items1, tk1, fr1⟩ := r
              rw [show processHostBlocks typeOf defOf hostName (b :: rest)
                  taken fr = some ({ b with ops := ops' } :: rest',
                    items0 ++ items1, tk1, fr1) from by
                simp [processHostBlocks, hops, hrec]] at h
              simp only [Option.some.injEq, Prod.mk.injEq] at h
              obtain ⟨-, h2, -, -⟩ := h
              rw [← h2] at hit
              rcases List.mem_append.mp hit with hit | hit
              · exact processHostOps_items typeOf defOf hostName b.ops taken
                  fr ops' items0 tk0 fr0 hops it hit
              · exact ih tk0 fr0 rest' items1 tk1 fr1 hrec it hit

theorem runItems_items (typeOf : Value → MType)
    (defOf : Value → Option Operation) :
    ∀ (items : List ModuleItem) (taken : List String) (fr : Nat)
      (items' : List ModuleItem) (tk' : List String) (fr' : Nat),
      (∀ it ∈ items, ∃ f, it = ModuleItem.hfunc f) →
      runItems typeOf defOf items taken fr = some (items', tk', fr') →
      ∀ it ∈ items', (∃ f, it = ModuleItem.hfunc f) ∨ InsertedItemOk it := by
  intro items
  induction items with
  | nil =>
      intro taken fr items' tk' fr' _ h it hit
      simp only [runItems, Option.some.injEq, Prod.mk.injEq] at h
      obtain ⟨h1, -, -⟩ := h
      rw [← h1] at hit
      simp at hit
  | cons item rest ih =>
      intro taken fr items' tk' fr' hall h it hit
      obtain ⟨f, hf⟩ := hall item (List.mem_cons_self _ _)
      subst hf
      have hrestall : ∀ it ∈ rest, ∃ f, it = ModuleItem.hfunc f :=
        fun it hit' => hall it (List.mem_cons_of_mem _ hit')
      cases hblocks : processHostBlocks typeOf defOf f.name f.body taken
          fr with
      | none =>
          rw [runItems, hblocks] at h
          exact absurd h (by simp)
      | some q =>
          obtain ⟨body', items0, tk0, fr0⟩ := q
          cases hrec : runItems typeOf defOf rest tk0 fr0 with
          | none =>
              rw [runItems, hblocks] at h
              simp [hrec] at h
          | some r =>
              obtain ⟨rest', tk1, fr1⟩ := r
              rw [show runItems typeOf defOf (ModuleItem.hfunc f :: rest)
                  taken fr = some (ModuleItem.hfunc { f with body := body' } ::
                    (items0 ++ rest'), tk1, fr1) from by
                simp [runItems, hblocks, hrec]] at h
              simp only [Option.some.injEq, Prod.mk.injEq] at h
              obtain ⟨h1, -, -⟩ := h
              rw [← h1] at hit
              rcases List.mem_cons.mp hit with rfl | hit
              · exact Or.inl ⟨{ f with body := body' }, rfl⟩
              rcases List.mem_append.mp hit with hit | hit
              · exact Or.inr (processHostBlocks_items typeOf defOf f.name
                  f.body taken fr body' items0 tk0 fr0 hblocks it hit)
              · exact ih tk0 fr0 rest' tk1 fr1 hrestall hrec it hit

theorem keepByOperands_all_nonconst (defOf : Value → Option Operation)
    {os : List Value} (h : ∀ v ∈ os, isConstantValue defOf v = false)
    {ts : List α} (hlen : ts.length ≤ os.length) :
    keepByOperands defOf os ts = ts := by
  unfold keepByOperands
  rw [List.filter_eq_self.mpr, List.map_fst_zip ts os hlen]
  intro p hp
  have hm := List.of_mem_zip hp
  simp [h p.2 hm.2]

theorem keepByOperands_length (defOf : Value → Option Operation) :
    ∀ (os : List Value) (ts : List α), ts.length = os.length →
      (keepByOperands defOf os ts).length =
        (os.filter (fun v => !(isConstantValue defOf v))).length := by
  intro os
  induction os with
  | nil =>
      intro ts hlen
      have : ts = [] := List.eq_nil_of_length_eq_zero hlen
      subst this
      simp [keepByOperands]
  | cons o os' ih =>
      intro ts hlen
      cases ts with
      | nil => simp at hlen
      | cons t ts' =>
          have hlen' : ts'.length = os'.length := by simpa using hlen
          by_cases hc : isConstantValue defOf o
          · simp only [keepByOperands, List.zip_cons_cons, List.filter_cons,
              hc, List.filter] at *
            simpa [keepByOperands, hc] using ih ts' hlen'
          · have hc' : isConstantValue defOf o = false := by
              simpa using hc
            have hih := ih ts' hlen'
            simp only [keepByOperands] at hih ⊢
            simp [List.filter_cons, hc', hih]

theorem filter_zip_keepByOperands (defOf : Value → Option Operation) :
    ∀ (os : List Value) (ts : List α), ts.length = os.length →
      (os.filter (fun v => !(isConstantValue defOf v))).zip
          (keepByOperands defOf os ts) =
        (os.zip ts).filter (fun p => !(isConstantValue defOf p.1)) := by
  intro os
  induction os with
  | nil =>
      intro ts hlen
      have : ts = [] := List.eq_nil_of_length_eq_zero hlen
      subst this
      simp [keepByOperands]
  | cons o os' ih =>
      intro ts hlen
      cases ts with
      | nil => simp at hlen
      | cons t ts' =>
          have hlen' : ts'.length = os'.length := by simpa using hlen
          by_cases hc : isConstantValue defOf o
          · simp only [keepByOperands, List.zip_cons_cons, List.filter_cons,
              hc, Bool.not_true] at *
            simpa [keepByOperands, hc] using ih ts' hlen'
          · have hc' : isConstantValue defOf o = false := by
              simpa using hc
            have hih := ih ts' hlen'
            simp only [keepByOperands] at hih ⊢
            simp [List.filter_cons, hc', hih]

/-- Full characterization of `inlineConstants` on a function whose entry block
argument and type lists match the launch's kernel operand count: the surviving
block arguments and types are the ones zipped against non-constant operands,
the clones precede the pre-existing operations, the resulting launch's
operands are the non-constant operands in order, and the no-op/rebuild branch
is decided by whether a constant-defined operand exists. -/
theorem inlineConstants_spec (defOf : Value → Option Operation)
    (launch : LaunchFuncOp)
    (hconst : ∀ v op, defOf v = some op → op.isConstantOp = true →
      op.results ≠ [])
    (nm : String) (aT rT : List MType) (ats : List String)
    (args : List Value) (types : List MType) (ops : List Operation)
    (more : List Block) (fr : Nat)
    (hargs : args.length = launch.kernelOperands.length)
    (htypes : types.length = launch.kernelOperands.length) :
    ∃ (σ : Value → Value) (clonesF : List Operation) (more' : List Block)
      (aT' rT' : List MType) (l' : LaunchFuncOp) (fr' : Nat),
      inlineConstants defOf ⟨nm, aT, rT, ats, ⟨args, types, ops⟩ :: more⟩
          launch fr =
        some (⟨nm, aT', rT', ats,
          ⟨keepByOperands defOf launch.kernelOperands args,
           keepByOperands defOf launch.kernelOperands types,
           clonesF ++ ops.map (Operation.mapOperands σ)⟩ :: more'⟩, l', fr') ∧
      l'.kernelOperands =
        launch.kernelOperands.filter (fun v => !(isConstantValue defOf v)) ∧
      l'.gridSize = launch.gridSize ∧ l'.blockSize = launch.blockSize ∧
      ((∀ v ∈ launch.kernelOperands, isConstantValue defOf v = false) →
        aT' = aT ∧ rT' = rT ∧ l' = launch) ∧
      ((∃ v ∈ launch.kernelOperands, isConstantValue defOf v = true) →
        aT' = keepByOperands defOf launch.kernelOperands types ∧ rT' = [] ∧
        l'.callee = nm) ∧
      clonesF.length = (launch.kernelOperands.filter
        (fun v => isConstantValue defOf v)).length ∧
      (∀ c ∈ clonesF, ∃ u op, u ∈ launch.kernelOperands ∧ defOf u = some op ∧
        op.isConstantOp = true ∧ c.kind = op.kind) := by
  obtain ⟨σ, clonesF, more', frL, hloop, horig, hcount⟩ :=
    hoistLoop_spec defOf launch.kernelOperands hconst
      launch.kernelOperands.length (le_refl _) args [] types [] [] ops more
      nm aT rT ats [] 0 fr hargs htypes rfl
  simp only [List.append_nil, List.nil_append, List.map_nil, List.take_length,
    Nat.zero_add] at hloop hcount
  set os := launch.kernelOperands with hos
  have hb : (⟨nm, aT, rT, ats,
      ⟨args, types, ops⟩ :: more⟩ : FuncOp).body.head? =
      some ⟨args, types, ops⟩ := rfl
  have heq := inlineConstants_eq_of_loop defOf
    ⟨nm, aT, rT, ats, ⟨args, types, ops⟩ :: more⟩ launch fr
    ⟨args, types, ops⟩ hb _ _ _ _ hloop
  by_cases hlen : ((os.filter (fun v => !(isConstantValue defOf v))).reverse).length
      = os.length
  · rw [if_pos hlen] at heq
    have hall : ∀ v ∈ os, (fun v => !(isConstantValue defOf v)) v = true := by
      apply List.filter_length_eq_length.mp
      simpa using hlen
    have hall' : ∀ v ∈ os, isConstantValue defOf v = false := by
      intro v hv
      simpa using hall v hv
    refine ⟨σ, clonesF, more', aT, rT, launch, frL, heq, ?_, rfl, rfl,
      fun _ => ⟨rfl, rfl, rfl⟩, ?_, hcount, horig⟩
    · rw [← hos, List.filter_eq_self.mpr hall]
    · rintro ⟨v, hv, hcv⟩
      rw [hall' v hv] at hcv
      exact Bool.noConfusion hcv
  · rw [if_neg hlen] at heq
    have hhd : (⟨nm, aT, rT, ats,
        ⟨keepByOperands defOf os args, keepByOperands defOf os types,
         clonesF ++ ops.map (Operation.mapOperands σ)⟩ :: more'⟩ :
          FuncOp).body.head? =
        some ⟨keepByOperands defOf os args, keepByOperands defOf os types,
          clonesF ++ ops.map (Operation.mapOperands σ)⟩ := rfl
    rw [hhd] at heq
    refine ⟨σ, clonesF, more', keepByOperands defOf os types, [],
      { callee := nm, gridSize := launch.gridSize,
        blockSize := launch.blockSize,
        kernelOperands :=
          ((os.filter (fun v => !(isConstantValue defOf v))).reverse).reverse },
      frL, heq, ?_, rfl, rfl, ?_, fun _ => ⟨rfl, rfl, rfl⟩, hcount, horig⟩
    · simp [List.reverse_reverse]
    · intro hall'
      exfalso
      apply hlen
      simp only [List.length_reverse]
      apply List.filter_length_eq_length.mpr
      intro v hv
      simpa using hall' v hv

/-! ## A concrete scenario: 12 placeholders, two live operands, one constant -/

/-- All values have index type in the example. -/
def tOf : Value → MType := fun _ => MType.index

/-- The host-side constant operation defining value 22. -/
def constDef : Operation :=
  { kind := .constantOp 7, operands := [], results := [22] }

/-- Defining operations of the example: value 22 comes from `constDef`,
everything else is a block argument. -/
def dOf : Value → Option Operation :=
  fun v => if v = 22 then some constDef else none

/-- The launch region: 12 index placeholders (0..11) and two live arguments
(40 and 41, matching operands 21 and 22), one use and a `gpu.return`. -/
def launchBody : List Block :=
  [{ args := (List.range 12) ++ [40, 41],
     argTypes := List.replicate 14 MType.index,
     ops := [{ kind := .genericOp "use", operands := [0, 11, 40, 41],
               results := [50] },
             { kind := .gpuReturnOp, operands := [], results := [] }] }]

/-- The launch operation of the scenario: operand 21 is not defined by a
constant, operand 22 is. -/
def l0 : LaunchOp :=
  { gridSize := [30, 31, 32], blockSize := [33, 34, 35],
    kernelOperands := [21, 22], body := launchBody }

/-- A module holding one host function whose single block launches `l0`. -/
def m0 : ModuleOp :=
  { attrs := [],
    items := [.hfunc { name := "host", argTypes := [], resultTypes := [],
                       attrs := [],
                       body := [{ args := [], argTypes := [],
                                  ops := [.launch l0] }] }] }

/-- The call operation the pass produces for `l0`: the constant operand 22
has been hoisted away. -/
def L0 : LaunchFuncOp :=
  { callee := "host_kernel", gridSize := [30, 31, 32],
    blockSize := [33, 34, 35], kernelOperands := [21] }

/-- The body-less kernel declaration left in the top-level module. -/
def stub0 : FuncOp :=
  { name := "host_kernel", argTypes := [MType.index], resultTypes := [],
    attrs := [kernelAttrName], body := [] }

/-- The entry block of the outlined kernel for `l0`: the cloned constant
(result 112) comes first, the twelve index operations follow. -/
def blk0 : Block :=
  { args := [40], argTypes := [MType.index],
    ops := { kind := .constantOp 7, operands := [], results := [112] } ::
      indexOps12 100 ++
      [{ kind := .genericOp "use", operands := [100, 111, 40, 112],
         results := [50] },
       { kind := .stdReturnOp, operands := [], results := [] }] }

/-- The kernel function moved into the nested kernel module. -/
def kfn0 : FuncOp :=
  { name := "host_kernel", argTypes := [MType.index], resultTypes := [],
    attrs := [kernelAttrName], body := [blk0] }

/-- The nested kernel module produced for `l0`. -/
def km0 : KernelModule :=
  { attrs := [kernelModuleAttrName], funcs := [kfn0] }

theorem outlineOneLaunch_l0 :
    outlineOneLaunch tOf dOf ["host"] "host" l0 100 =
      some (L0, stub0, km0, 113) := by decide

/-! ## Further support for the claim theorems -/

theorem lookupSubst_getElem :
    ∀ (l : List Value) (r : Nat), l.Nodup → ∀ (i : Nat) (a : Value),
      l[i]? = some a → lookupSubst l r a = r + i := by
  intro l
  induction l with
  | nil => intro r _ i a h; simp at h
  | cons x xs ih =>
      intro r hnd i a h
      cases i with
      | zero =>
          have hx : a = x := by simpa using h.symm
          subst hx
          simp [lookupSubst]
      | succ j =>
          have hj : xs[j]? = some a := by simpa using h
          have hmem : a ∈ xs := List.getElem?_mem hj
          have hne : a ≠ x := by
            intro he
            exact (List.nodup_cons.mp hnd).1 (he ▸ hmem)
          rw [lookupSubst, if_neg hne, ih (r + 1) (List.Nodup.of_cons hnd) j
            a hj]
          ring

theorem map_rewriteReturnOp_indexOps12 (fresh : Nat) :
    (indexOps12 fresh).map rewriteReturnOp = indexOps12 fresh := rfl

theorem rewrite_blocks_no_gpuReturn (bs : List Block) :
    ∀ b ∈ bs.map rewriteBlockReturns, ∀ op ∈ b.ops,
      op.kind ≠ OpKind.gpuReturnOp := by
  intro b hb op hop
  simp only [List.mem_map] at hb
  obtain ⟨b0, -, rfl⟩ := hb
  simp only [rewriteBlockReturns, List.mem_map] at hop
  obtain ⟨o0, -, rfl⟩ := hop
  exact rewriteReturnOp_kind_ne o0

/-- What `outlineKernelFunc` produces on a launch whose entry block has
twelve leading placeholders: the name, signature, attribute, moved-out body
with the twelve index operations injected and placeholder uses substituted,
and every `gpu.return` rewritten. -/
theorem outlineKernelFunc_spec (typeOf : Value → MType) (hostName : String)
    (l : LaunchOp) (fresh : Nat) (plh S : List Value) (TA TS : List MType)
    (opsB : List Operation) (more : List Block)
    (hbody : l.body = ⟨plh ++ S, TA ++ TS, opsB⟩ :: more)
    (hplh : plh.length = 12) (hTA : TA.length = 12)
    (hnd : plh.Nodup) (hlt : ∀ a ∈ plh, a < fresh) :
    outlineKernelFunc typeOf hostName l fresh =
      some (⟨hostName ++ "_kernel", l.kernelOperands.map typeOf, [],
          [kernelAttrName],
          ⟨S, TS,
           indexOps12 fresh ++
             (opsB.map (Operation.mapOperands (lookupSubst plh fresh))).map
               rewriteReturnOp⟩ ::
            (more.map (Block.mapOperands (lookupSubst plh fresh))).map
              rewriteBlockReturns⟩,
        { l with body := [] }, fresh + 12) := by
  rw [outlineKernelFunc_eq, hbody]
  rw [injectGpuIndexOperations_spec fresh plh S TA TS opsB more
    (hostName ++ "_kernel") (l.kernelOperands.map typeOf) [] [kernelAttrName]
    hplh hTA hnd hlt]
  simp only [FuncOp.rewriteAllReturns, List.map_cons]
  rw [show rewriteBlockReturns
      ⟨S, TS, indexOps12 fresh ++
        opsB.map (Operation.mapOperands (lookupSubst plh fresh))⟩ =
      ⟨S, TS, indexOps12 fresh ++
        (opsB.map (Operation.mapOperands (lookupSubst plh fresh))).map
          rewriteReturnOp⟩ from by
    simp [rewriteBlockReturns, List.map_append,
      map_rewriteReturnOp_indexOps12]]

/-! ## Claim theorems -/

/-- C1: Region extraction: `outlineKernelFunc` returns a function named after
the host with the fixed `_kernel` suffix, whose parameter types are the
launch's kernel operand types with empty result list, carrying the kernel
attribute; the launch region's block list is moved (the launch is returned
with an empty body), and every `gpu.return` terminator of the moved body has
been replaced in place by a plain `std.return`. -/
theorem claim_C1 (typeOf : Value → MType) (hostName : String)
    (l : LaunchOp) (fresh : Nat) (plh S : List Value) (TA TS : List MType)
    (opsB : List Operation) (more : List Block)
    (hbody : l.body = ⟨plh ++ S, TA ++ TS, opsB⟩ :: more)
    (hplh : plh.length = 12) (hTA : TA.length = 12)
    (hnd : plh.Nodup) (hlt : ∀ a ∈ plh, a < fresh) :
    ∃ (K : FuncOp) (fr' : Nat),
      outlineKernelFunc typeOf hostName l fresh =
        some (K, { l with body := [] }, fr') ∧
      K.name = hostName ++ "_kernel" ∧
      K.argTypes = l.kernelOperands.map typeOf ∧
      K.resultTypes = [] ∧
      kernelAttrName ∈ K.attrs ∧
      K.body =
        ⟨S, TS,
         indexOps12 fresh ++
           (opsB.map (Operation.mapOperands (lookupSubst plh fresh))).map
             rewriteReturnOp⟩ ::
          (more.map (Block.mapOperands (lookupSubst plh fresh))).map
            rewriteBlockReturns ∧
      K.body.length = l.body.length ∧
      (∀ b ∈ K.body, ∀ op ∈ b.ops, op.kind ≠ OpKind.gpuReturnOp) ∧
      (∀ op : Operation, op.kind = OpKind.gpuReturnOp →
        rewriteReturnOp op =
          { kind := OpKind.stdReturnOp, operands := [], results := [] }) := by
  refine ⟨_, fresh + 12,
    outlineKernelFunc_spec typeOf hostName l fresh plh S TA TS opsB more
      hbody hplh hTA hnd hlt, rfl, rfl, rfl, by simp, rfl, by simp [hbody],
    ?_, ?_⟩
  · intro b hb op hop
    rcases List.mem_cons.mp hb with rfl | hb
    · rcases List.mem_append.mp hop with h1 | h1
      · exact indexOps12_not_gpuReturn fresh h1
      · obtain ⟨o0, -, rfl⟩ := List.mem_map.mp h1
        exact rewriteReturnOp_kind_ne o0
    · exact rewrite_blocks_no_gpuReturn _ b hb op hop
  · intro op hk
    simp [rewriteReturnOp, hk]

theorem claim_C1_witness :
    ∃ (K : FuncOp) (fr' : Nat),
      outlineKernelFunc tOf "host" l0 100 =
        some (K, { l0 with body := [] }, fr') ∧
      K.name = "host_kernel" ∧ kernelAttrName ∈ K.attrs ∧
      (∀ b ∈ K.body, ∀ op ∈ b.ops, op.kind ≠ OpKind.gpuReturnOp) := by
  obtain ⟨K, fr', h1, h2, -, -, h5, -, -, h8, -⟩ :=
    claim_C1 tOf "host" l0 100 (List.range 12) [40, 41]
      (List.replicate 12 MType.index) [MType.index, MType.index]
      [{ kind := .genericOp "use", operands := [0, 11, 40, 41],
         results := [50] },
       { kind := .gpuReturnOp, operands := [], results := [] }] []
      (by decide) (by decide) (by decide) (by decide) (by decide)
  exact ⟨K, fr', h1, h2.trans (by decide), h5, h8⟩

/-- C2: Index injection: an entry block whose first twelve parameters are the
placeholders gets the twelve index operations inserted at its start in the
fixed order (block ids, thread ids, grid dims, block dims, axes x,y,z), every
use of placeholder `i` is replaced by the result of injected operation `i`
(the substitution maps the `i`-th placeholder to `fresh + i`, the single
result of the `i`-th injected operation), no placeholder use remains, and the
parameter count shrinks by exactly twelve. -/
theorem claim_C2 (fresh : Nat) (plh S : List Value) (TA TS : List MType)
    (opsB : List Operation) (more : List Block) (nm : String)
    (aT rT : List MType) (ats : List String)
    (hplh : plh.length = 12) (hTA : TA.length = 12)
    (hnd : plh.Nodup) (hlt : ∀ a ∈ plh, a < fresh) :
    injectGpuIndexOperations
        ⟨nm, aT, rT, ats, ⟨plh ++ S, TA ++ TS, opsB⟩ :: more⟩ fresh =
      some (⟨nm, aT, rT, ats,
        ⟨S, TS,
         indexOps12 fresh ++
           opsB.map (Operation.mapOperands (lookupSubst plh fresh))⟩ ::
          more.map (Block.mapOperands (lookupSubst plh fresh))⟩,
        fresh + 12) ∧
    (indexOps12 fresh).map Operation.kind =
      [.blockIdOp "x", .blockIdOp "y", .blockIdOp "z",
       .threadIdOp "x", .threadIdOp "y", .threadIdOp "z",
       .gridDimOp "x", .gridDimOp "y", .gridDimOp "z",
       .blockDimOp "x", .blockDimOp "y", .blockDimOp "z"] ∧
    (∀ (i : Nat) (a : Value), plh[i]? = some a →
      lookupSubst plh fresh a = fresh + i ∧
      ∃ op, (indexOps12 fresh)[i]? = some op ∧ op.results = [fresh + i]) ∧
    (∀ v ∈ usesB
        (⟨S, TS,
          indexOps12 fresh ++
            opsB.map (Operation.mapOperands (lookupSubst plh fresh))⟩ ::
          more.map (Block.mapOperands (lookupSubst plh fresh))), v ∉ plh) ∧
    S.length + 12 = (plh ++ S).length := by
  refine ⟨injectGpuIndexOperations_spec fresh plh S TA TS opsB more
      nm aT rT ats hplh hTA hnd hlt, indexOps12_kinds fresh, ?_, ?_, ?_⟩
  · intro i a h
    obtain ⟨hi, -⟩ := List.getElem?_eq_some.mp h
    refine ⟨lookupSubst_getElem plh fresh hnd i a h, ?_⟩
    obtain ⟨k, hop⟩ := indexOps12_get?_exists fresh (hplh ▸ hi)
    exact ⟨mkIndexOp k (fresh + i), hop, rfl⟩
  · intro v hv
    simp only [usesB, Block.usesOf, List.flatMap_cons, List.flatMap_append,
      List.mem_append] at hv
    have hidx : (indexOps12 fresh).flatMap Operation.operands = [] := rfl
    rw [hidx, opsUses_map] at hv
    have hrest : (more.map (Block.mapOperands (lookupSubst plh fresh))).flatMap
        Block.usesOf = (more.flatMap Block.usesOf).map
          (lookupSubst plh fresh) := by
      have := usesB_map_blockMap (lookupSubst plh fresh) more
      simpa [usesB] using this
    rw [hrest] at hv
    simp only [List.nil_append, List.mem_map] at hv
    intro ha
    rcases hv with hv | hv
    · rcases hv with hnil | hv
      · simp at hnil
      · obtain ⟨w, -, hw⟩ := hv
        exact lookupSubst_ne_of_lt hlt ha w hw
    · obtain ⟨w, -, hw⟩ := hv
      exact lookupSubst_ne_of_lt hlt ha w hw
  · simp [hplh]
    omega

theorem claim_C2_witness :
    ∃ (F : FuncOp),
      injectGpuIndexOperations
          ⟨"host_kernel", [MType.index, MType.index], [], [kernelAttrName],
           ⟨(List.range 12) ++ [40, 41], (List.replicate 12 MType.index) ++
              [MType.index, MType.index],
            [{ kind := .genericOp "use", operands := [0, 11, 40, 41],
               results := [50] }]⟩ :: []⟩ 100 =
        some (F, 112) ∧
      (∀ v ∈ usesB F.body, v ∉ List.range 12) := by
  obtain ⟨h1, -, -, h4, -⟩ :=
    claim_C2 100 (List.range 12) [40, 41] (List.replicate 12 MType.index)
      [MType.index, MType.index]
      [{ kind := .genericOp "use", operands := [0, 11, 40, 41],
         results := [50] }] [] "host_kernel" [MType.index, MType.index] []
      [kernelAttrName] (by decide) (by decide) (by decide) (by decide)
  exact ⟨_, h1, h4⟩

/-- C9: Injection precondition safety: with fewer than twelve entry-block
parameters the injection hits the fatal out-of-range argument access and the
whole computation aborts (`none`); with at least twelve it always succeeds,
so the error branch is unreachable under the precondition. -/
theorem claim_C9 (nm : String) (aT rT : List MType) (ats : List String)
    (entry : Block) (rest : List Block) (fresh : Nat) :
    (entry.args.length < 12 →
      injectGpuIndexOperations ⟨nm, aT, rT, ats, entry :: rest⟩ fresh =
        none) ∧
    (12 ≤ entry.args.length →
      (injectGpuIndexOperations ⟨nm, aT, rT, ats, entry :: rest⟩
        fresh).isSome) :=
  ⟨fun h => injectGpuIndexOperations_none_of_lt nm aT rT ats entry rest
      fresh h,
   fun h => injectGpuIndexOperations_isSome nm aT rT ats entry rest fresh h⟩

theorem claim_C9_witness :
    injectGpuIndexOperations
        ⟨"k", [], [], [], [⟨[0], [MType.index], []⟩]⟩ 5 = none :=
  (claim_C9 "k" [] [] [] ⟨[0], [MType.index], []⟩ [] 5).1 (by decide)

theorem isConstantOp_of_kind_eq {c op : Operation} (h : c.kind = op.kind) :
    c.isConstantOp = op.isConstantOp := by
  unfold Operation.isConstantOp
  rw [h]

theorem dOf_wf : ∀ (v : Value) (op : Operation), dOf v = some op →
    op.isConstantOp = true → op.operands = [] ∧ op.results ≠ [] := by
  intro v op h _
  by_cases hv : v = 22
  · subst hv
    have h2 : some constDef = some op := h
    have h3 : constDef = op := Option.some.inj h2
    subst h3
    exact ⟨rfl, by decide⟩
  · simp [dOf, hv] at h

theorem dOf_results : ∀ (v : Value) (op : Operation), dOf v = some op →
    op.isConstantOp = true → op.results ≠ [] :=
  fun v op h hc => (dOf_wf v op h hc).2

/-- C3: Arity invariant: the call created by the rewriter has as many
arguments as the callee has declared parameters, and after constant hoisting
the reduced call still has as many arguments as the updated callee has
parameters; the surviving argument/parameter pairs are exactly the original
pairs whose argument is not constant-defined, in their original order. -/
theorem claim_C3 (defOf : Value → Option Operation) (l : LaunchOp)
    (nm : String) (rT : List MType) (ats : List String)
    (args : List Value) (types : List MType) (ops : List Operation)
    (more : List Block) (fr : Nat)
    (hconst : ∀ v op, defOf v = some op → op.isConstantOp = true →
      op.results ≠ [])
    (hargs : args.length = l.kernelOperands.length)
    (htypes : types.length = l.kernelOperands.length) :
    l.kernelOperands.length =
      (⟨nm, types, rT, ats, ⟨args, types, ops⟩ :: more⟩ :
        FuncOp).argTypes.length ∧
    ∃ (kf' : FuncOp) (L : LaunchFuncOp) (fr' : Nat),
      convertToLaunchFuncOp defOf l
          ⟨nm, types, rT, ats, ⟨args, types, ops⟩ :: more⟩ fr =
        some (kf', L, fr') ∧
      L.kernelOperands.length = kf'.argTypes.length ∧
      L.kernelOperands.zip kf'.argTypes =
        (l.kernelOperands.zip types).filter
          (fun p => !(isConstantValue defOf p.1)) := by
  obtain ⟨σ, clonesF, more', aT', rT', l', fr', heq, hker, -, -, hnop,
    hhoist, -, -⟩ :=
    inlineConstants_spec defOf
      { callee := nm, gridSize := l.gridSize, blockSize := l.blockSize,
        kernelOperands := l.kernelOperands } hconst nm types rT ats args
      types ops more fr hargs htypes
  refine ⟨htypes.symm, _, l', fr', heq, ?_, ?_⟩
  all_goals
    by_cases hc : ∀ v ∈ l.kernelOperands, isConstantValue defOf v = false
  · obtain ⟨haT, -, hl'⟩ := hnop hc
    rw [hl', haT]
    exact htypes.symm
  · have hex : ∃ v ∈ l.kernelOperands, isConstantValue defOf v = true := by
      by_contra hno
      push_neg at hno
      apply hc
      intro v hv
      cases h' : isConstantValue defOf v
      · rfl
      · exact absurd h' (hno v hv)
    obtain ⟨haT, -, -⟩ := hhoist hex
    rw [hker, haT]
    exact (keepByOperands_length defOf l.kernelOperands types htypes).symm
  · obtain ⟨haT, -, hl'⟩ := hnop hc
    rw [hl', haT]
    show l.kernelOperands.zip types = _
    rw [List.filter_eq_self.mpr]
    intro p hp
    have hm := List.of_mem_zip hp
    simp [hc p.1 hm.1]
  · have hex : ∃ v ∈ l.kernelOperands, isConstantValue defOf v = true := by
      by_contra hno
      push_neg at hno
      apply hc
      intro v hv
      cases h' : isConstantValue defOf v
      · rfl
      · exact absurd h' (hno v hv)
    obtain ⟨haT, -, -⟩ := hhoist hex
    rw [hker, haT]
    exact filter_zip_keepByOperands defOf l.kernelOperands types htypes

theorem claim_C3_witness :
    ∃ (kf' : FuncOp) (L : LaunchFuncOp) (fr' : Nat),
      convertToLaunchFuncOp dOf l0
          ⟨"host_kernel", [MType.index, MType.index], [], [kernelAttrName],
           ⟨[40, 41], [MType.index, MType.index], []⟩ :: []⟩ 100 =
        some (kf', L, fr') ∧
      L.kernelOperands.length = kf'.argTypes.length := by
  obtain ⟨-, kf', L, fr', heq, hlen, -⟩ :=
    claim_C3 dOf l0 "host_kernel" [] [kernelAttrName] [40, 41]
      [MType.index, MType.index] [] [] 100 dOf_results (by decide) (by decide)
  exact ⟨kf', L, fr', heq, hlen⟩

/-- C10: Implicit: an argument with no defining operation is treated as
non-constant by the hoister: it is kept (in position) in the reduced
argument list, and every operation the hoister clones into the callee stems
from an operand that does have a constant defining operation. -/
theorem claim_C10 (defOf : Value → Option Operation) (launch : LaunchFuncOp)
    (hconst : ∀ v op, defOf v = some op → op.isConstantOp = true →
      op.results ≠ [])
    (nm : String) (aT rT : List MType) (ats : List String)
    (args : List Value) (types : List MType) (ops : List Operation)
    (more : List Block) (fr : Nat)
    (hargs : args.length = launch.kernelOperands.length)
    (htypes : types.length = launch.kernelOperands.length)
    (v : Value) (hv : v ∈ launch.kernelOperands) (hnone : defOf v = none) :
    isConstantValue defOf v = false ∧
    ∃ (kf' : FuncOp) (l' : LaunchFuncOp) (fr' : Nat) (σ : Value → Value)
      (clonesF : List Operation) (more' : List Block),
      inlineConstants defOf ⟨nm, aT, rT, ats, ⟨args, types, ops⟩ :: more⟩
          launch fr =
        some (kf', l', fr') ∧
      v ∈ l'.kernelOperands ∧
      l'.kernelOperands = launch.kernelOperands.filter
        (fun u => !(isConstantValue defOf u)) ∧
      kf'.body =
        ⟨keepByOperands defOf launch.kernelOperands args,
         keepByOperands defOf launch.kernelOperands types,
         clonesF ++ ops.map (Operation.mapOperands σ)⟩ :: more' ∧
      (∀ c ∈ clonesF, ∃ u op, u ∈ launch.kernelOperands ∧
        defOf u = some op ∧ op.isConstantOp = true ∧ c.kind = op.kind) := by
  have hncv : isConstantValue defOf v = false := by
    simp [isConstantValue, hnone]
  obtain ⟨σ, clonesF, more', aT', rT', l', fr', heq, hker, -, -, -, -, -,
    horig⟩ :=
    inlineConstants_spec defOf launch hconst nm aT rT ats args types ops
      more fr hargs htypes
  refine ⟨hncv, _, l', fr', σ, clonesF, more', heq, ?_, hker, rfl, horig⟩
  rw [hker]
  exact List.mem_filter.mpr ⟨hv, by simp [hncv]⟩

theorem claim_C10_witness :
    isConstantValue dOf 21 = false ∧
    ∃ (kf' : FuncOp) (l' : LaunchFuncOp) (fr' : Nat) (σ : Value → Value)
      (clonesF : List Operation) (more' : List Block),
      inlineConstants dOf
          ⟨"host_kernel", [MType.index, MType.index], [], [kernelAttrName],
           ⟨[40, 41], [MType.index, MType.index], []⟩ :: []⟩
          { callee := "host_kernel", gridSize := [30, 31, 32],
            blockSize := [33, 34, 35], kernelOperands := [21, 22] } 100 =
        some (kf', l', fr') ∧
      21 ∈ l'.kernelOperands ∧
      l'.kernelOperands = [21, 22].filter
        (fun u => !(isConstantValue dOf u)) ∧
      kf'.body =
        ⟨keepByOperands dOf [21, 22] [40, 41],
         keepByOperands dOf [21, 22] [MType.index, MType.index],
         clonesF ++ [].map (Operation.mapOperands σ)⟩ :: more' ∧
      (∀ c ∈ clonesF, ∃ u op, u ∈ [21, 22] ∧ dOf u = some op ∧
        op.isConstantOp = true ∧ c.kind = op.kind) :=
  claim_C10 dOf
    { callee := "host_kernel", gridSize := [30, 31, 32],
      blockSize := [33, 34, 35], kernelOperands := [21, 22] }
    dOf_results "host_kernel" [MType.index, MType.index] [] [kernelAttrName]
    [40, 41] [MType.index, MType.index] [] [] 100 (by decide) (by decide)
    21 (by decide) (by decide)

/-- C5: Constant-hoisting no-op and idempotence: when no argument is
constant-defined the hoister returns the call, callee and fresh counter
unchanged; and on any successful output a second run performs no further
mutation. -/
theorem claim_C5 (defOf : Value → Option Operation) (kf : FuncOp)
    (launch : LaunchFuncOp) (fr : Nat) :
    (kf.body ≠ [] →
      (∀ v ∈ launch.kernelOperands, isConstantValue defOf v = false) →
      inlineConstants defOf kf launch fr = some (kf, launch, fr)) ∧
    (∀ (kf' : FuncOp) (l' : LaunchFuncOp) (fr' : Nat),
      inlineConstants defOf kf launch fr = some (kf', l', fr') →
      inlineConstants defOf kf' l' fr' = some (kf', l', fr')) :=
  ⟨fun h1 h2 => inlineConstants_nop defOf kf launch fr h1 h2,
   fun kf' l' fr' h => inlineConstants_idem defOf kf launch fr kf' l' fr' h⟩

theorem claim_C5_witness :
    inlineConstants dOf
        ⟨"k", [MType.index], [], [], ⟨[40], [MType.index], []⟩ :: []⟩
        { callee := "k", gridSize := [], blockSize := [],
          kernelOperands := [21] } 7 =
      some (⟨"k", [MType.index], [], [], ⟨[40], [MType.index], []⟩ :: []⟩,
        { callee := "k", gridSize := [], blockSize := [],
          kernelOperands := [21] }, 7) :=
  (claim_C5 dOf
    ⟨"k", [MType.index], [], [], ⟨[40], [MType.index], []⟩ :: []⟩
    { callee := "k", gridSize := [], blockSize := [],
      kernelOperands := [21] } 7).1 (by decide) (by decide)

/-- C4: Call-site rewriting: the one launch of a block is replaced in
position by the call operation returned by outlining, which carries the
launch's grid and block size triples; the call the rewriter builds before
hoisting references the callee by name and copies the live-in operand list
unchanged, and only the hoister's output replaces the erased launch. -/
theorem claim_C4 (typeOf : Value → MType) (defOf : Value → Option Operation)
    (hostName : String) (pre post : List HostOp) (l : LaunchOp)
    (taken : List String) (fr : Nat) (ops' : List HostOp)
    (items : List ModuleItem) (tk : List String) (fr₂ : Nat)
    (hpre : ∀ l', HostOp.launch l' ∉ pre)
    (hpost : ∀ l', HostOp.launch l' ∉ post)
    (h : processHostOps typeOf defOf hostName
      (pre ++ HostOp.launch l :: post) taken fr =
        some (ops', items, tk, fr₂)) :
    ∃ (L : LaunchFuncOp) (declStub : FuncOp) (kmod : KernelModule),
      outlineOneLaunch typeOf defOf taken hostName l fr =
        some (L, declStub, kmod, fr₂) ∧
      ops' = pre ++ HostOp.launchCall L :: post ∧
      L.gridSize = l.gridSize ∧ L.blockSize = l.blockSize ∧
      (∀ (defOf' : Value → Option Operation) (l' : LaunchOp) (kf : FuncOp)
        (fr' : Nat),
        convertToLaunchFuncOp defOf' l' kf fr' =
          inlineConstants defOf' kf
            { callee := kf.name, gridSize := l'.gridSize,
              blockSize := l'.blockSize,
              kernelOperands := l'.kernelOperands } fr') := by
  obtain ⟨L, declStub, kmod, ho, he1, -, -⟩ :=
    processHostOps_single_launch typeOf defOf hostName pre post l taken fr
      ops' items tk fr₂ hpre hpost h
  obtain ⟨g1, g2, -⟩ := outlineOneLaunch_fields typeOf defOf taken hostName
    l fr L declStub kmod fr₂ ho
  exact ⟨L, declStub, kmod, ho, he1, g1, g2, fun _ _ _ _ => rfl⟩

theorem claim_C4_witness :
    ∃ (L : LaunchFuncOp) (declStub : FuncOp) (kmod : KernelModule),
      outlineOneLaunch tOf dOf ["host"] "host" l0 100 =
        some (L, declStub, kmod, 113) ∧
      L.gridSize = l0.gridSize ∧ L.blockSize = l0.blockSize := by
  obtain ⟨L, d, k, ho, -, g1, g2, -⟩ :=
    claim_C4 tOf dOf "host" [] [] l0 ["host"] 100
      [HostOp.launchCall L0] [ModuleItem.kfunc stub0, ModuleItem.kmod km0]
      ["host", "host_kernel"] 113
      (fun l' hl => by simp at hl) (fun l' hl => by simp at hl) (by decide)
  exact ⟨L, d, k, ho, g1, g2⟩

/-- C6: No dangling references: on a closed launch region with all values
below the fresh counter and well-formed terminators, the function placed in
the kernel module is closed: every value used inside it is defined inside it
(by a parameter, an injected or cloned operation, or a body operation). -/
theorem claim_C6 (typeOf : Value → MType) (defOf : Value → Option Operation)
    (taken : List String) (hostName : String) (l : LaunchOp) (fresh : Nat)
    (L : LaunchFuncOp) (declStub : FuncOp) (kmod : KernelModule) (fr' : Nat)
    (hwf : ∀ v op, defOf v = some op → op.isConstantOp = true →
      op.operands = [] ∧ op.results ≠ [])
    (h : outlineOneLaunch typeOf defOf taken hostName l fresh =
      some (L, declStub, kmod, fr'))
    (hcl : ClosedB l.body) (hd : ∀ v ∈ defsB l.body, v < fresh)
    (hu : ∀ v ∈ usesB l.body, v < fresh) (hret : RetOk l.body) :
    ∀ f ∈ kmod.funcs, FuncOp.Closed f :=
  outlineOneLaunch_closed typeOf defOf taken hostName l fresh L declStub
    kmod fr' hwf h hcl hd hu hret

theorem claim_C6_witness : FuncOp.Closed kfn0 :=
  claim_C6 tOf dOf ["host"] "host" l0 100 L0 stub0 km0 113 dOf_wf
    outlineOneLaunch_l0 (by unfold ClosedB; decide) (by decide) (by decide)
    (by unfold RetOk; decide) kfn0 (by decide)

/-- The ownership property claimed for kernel-entry-tagged functions: a
module owning a kernel-entry-tagged function item must itself be tagged as a
kernel holder.  The top-level module owns its `kfunc` items. -/
def NoForeignKernelFunc (m : ModuleOp) : Prop :=
  kernelModuleAttrName ∈ m.attrs ∨
  ∀ it ∈ m.items,
    match it with
    | ModuleItem.kfunc f => kernelAttrName ∉ f.attrs
    | _ => True

/-- The host function of `m0` after the pass. -/
def hostOut : HostFunc :=
  { name := "host", argTypes := [], resultTypes := [], attrs := [],
    body := [{ args := [], argTypes := [], ops := [.launchCall L0] }] }

/-- The module the pass produces from `m0`. -/
def m0out : ModuleOp :=
  { attrs := [],
    items := [.hfunc hostOut, .kfunc stub0, .kmod km0] }

/-- C7 counterexample: the pass leaves the body-less declaration `stub0` as
an item of the top-level module; `stub0` carries the kernel-entry attribute
(the driver clones the outlined function with its attributes), but the
top-level module is not tagged as a kernel holder.  So a kernel-entry-tagged
function is owned by a module that is not a kernel holder, refuting the
claimed uniqueness of ownership. -/
theorem claim_C7_counterexample :
    runOnModule tOf dOf m0 100 = some (m0out, 113) ∧
    ModuleItem.kfunc stub0 ∈ m0out.items ∧
    kernelAttrName ∈ stub0.attrs ∧
    kernelModuleAttrName ∉ m0out.attrs ∧
    ¬ NoForeignKernelFunc m0out := by
  refine ⟨by decide, by decide, by decide, by decide, ?_⟩
  intro hcon
  rcases hcon with hattr | hall
  · exact (by decide : kernelModuleAttrName ∉ m0out.attrs) hattr
  · exact (hall (ModuleItem.kfunc stub0) (by decide))
      (by decide : kernelAttrName ∈ stub0.attrs)

/-- C7 (amended): after the pass on a module of host functions, every item
is a host function, a body-less kernel-entry-tagged declaration left at top
level, or a kernel-holder-tagged module owning exactly one kernel-entry
function.  A kernel function's body lives only inside its kernel module;
the top-level copy of the symbol is a body-less declaration (the body is
moved, never duplicated), but it keeps the kernel-entry attribute. -/
theorem claim_C7_amended (typeOf : Value → MType)
    (defOf : Value → Option Operation) (m : ModuleOp) (fresh : Nat)
    (m' : ModuleOp) (fr' : Nat)
    (hitems : ∀ it ∈ m.items, ∃ f, it = ModuleItem.hfunc f)
    (h : runOnModule typeOf defOf m fresh = some (m', fr')) :
    ∀ it ∈ m'.items, (∃ f, it = ModuleItem.hfunc f) ∨ InsertedItemOk it := by
  unfold runOnModule at h
  cases hrun : runItems typeOf defOf m.items (moduleNames m.items) fresh with
  | none => rw [hrun] at h; exact absurd h (by simp)
  | some q =>
      obtain ⟨items', tk, fr1⟩ := q
      rw [hrun] at h
      simp only [Option.pure_def, Option.bind_eq_bind, Option.some_bind,
        Option.some.injEq, Prod.mk.injEq] at h
      obtain ⟨h1, -⟩ := h
      intro it hit
      have hm : m'.items = items' := by rw [← h1]
      rw [hm] at hit
      exact runItems_items typeOf defOf m.items (moduleNames m.items) fresh
        items' tk fr1 hitems hrun it hit

theorem claim_C7_amended_witness :
    (∃ f, ModuleItem.kfunc stub0 = ModuleItem.hfunc f) ∨
      InsertedItemOk (ModuleItem.kfunc stub0) :=
  claim_C7_amended tOf dOf m0 100 m0out 113
    (by
      intro it hit
      simp only [m0, List.mem_singleton] at hit
      exact ⟨_, hit⟩)
    (by decide) (ModuleItem.kfunc stub0) (by decide)

/-- C8 counterexample: on the spec's own scenario (12 placeholders, live
operands 21 and 22, operand 22 constant-defined) the callee signature does
have 1 parameter and the call site 1 argument, but the callee body does not
begin with the 12 injected index operations: its first operation is the
cloned constant, and the 12 index operations follow it. -/
theorem claim_C8_counterexample :
    outlineOneLaunch tOf dOf ["host"] "host" l0 100 =
      some (L0, stub0, km0, 113) ∧
    stub0.argTypes.length = 1 ∧ L0.kernelOperands = [21] ∧
    km0.funcs = [kfn0] ∧ kfn0.body = [blk0] ∧
    (blk0.ops.take 1).map Operation.isConstantOp = [true] ∧
    (∀ op ∈ indexOps12 100, op.isConstantOp = false) ∧
    blk0.ops.take 12 ≠ indexOps12 100 ∧
    (blk0.ops.drop 1).take 12 = indexOps12 100 := by
  decide

theorem outlineOneLaunch_eq_of (typeOf : Value → MType)
    (defOf : Value → Option Operation) (taken : List String)
    (hostName : String) (l : LaunchOp) (fresh : Nat) (K : FuncOp)
    (le : LaunchOp) (fr1 : Nat) (K2 : FuncOp) (newL : LaunchFuncOp)
    (fr2 : Nat)
    (h1 : outlineKernelFunc typeOf hostName l fresh = some (K, le, fr1))
    (h2 : convertToLaunchFuncOp defOf l
      { K with name := freshName taken K.name } fr1 = some (K2, newL, fr2)) :
    outlineOneLaunch typeOf defOf taken hostName l fresh =
      some (newL, { K2 with body := [] },
        { attrs := [kernelModuleAttrName], funcs := [K2] }, fr2) := by
  unfold outlineOneLaunch
  rw [h1]
  simp only [Option.bind_eq_bind, Option.some_bind, h2, Option.pure_def]

/-- C8 (amended): end-to-end, for a launch region with 12 placeholders and
live operands of which some are constant-defined, the callee signature keeps
one parameter per non-constant operand, the call site keeps exactly the
non-constant operands, and the callee body begins with the cloned constant
operations followed by the 12 injected index operations (the clones are
inserted at the block start after injection has already run, so they come
first). -/
theorem claim_C8_amended (typeOf : Value → MType)
    (defOf : Value → Option Operation) (taken : List String)
    (hostName : String) (l : LaunchOp) (fresh : Nat)
    (plh S : List Value) (TA TS : List MType) (opsB : List Operation)
    (hbody : l.body = [⟨plh ++ S, TA ++ TS, opsB⟩])
    (hplh : plh.length = 12) (hTA : TA.length = 12)
    (hnd : plh.Nodup) (hlt : ∀ a ∈ plh, a < fresh)
    (hS : S.length = l.kernelOperands.length)
    (hTS : TS.length = l.kernelOperands.length)
    (hconst : ∀ v op, defOf v = some op → op.isConstantOp = true →
      op.results ≠ []) :
    ∃ (L : LaunchFuncOp) (declStub : FuncOp) (kmod : KernelModule)
      (fr' : Nat) (kfn : FuncOp)
      (clonesF restOps : List Operation) (args' : List Value)
      (tys' : List MType),
      outlineOneLaunch typeOf defOf taken hostName l fresh =
        some (L, declStub, kmod, fr') ∧
      kmod.funcs = [kfn] ∧
      kfn.body.head? = some ⟨args', tys',
        clonesF ++ (indexOps12 fresh ++ restOps)⟩ ∧
      (∀ c ∈ clonesF, c.isConstantOp = true) ∧
      clonesF.length = (l.kernelOperands.filter
        (fun v => isConstantValue defOf v)).length ∧
      L.kernelOperands = l.kernelOperands.filter
        (fun v => !(isConstantValue defOf v)) ∧
      declStub.argTypes.length = (l.kernelOperands.filter
        (fun v => !(isConstantValue defOf v))).length ∧
      declStub.body = [] := by
  have hout := outlineKernelFunc_spec typeOf hostName l fresh plh S TA TS
    opsB [] hbody hplh hTA hnd hlt
  simp only [List.map_nil] at hout
  set nm2 := freshName taken (hostName ++ "_kernel") with hnm2
  set opsBR := (opsB.map (Operation.mapOperands (lookupSubst plh fresh))).map
    rewriteReturnOp with hopsBR
  obtain ⟨σ₂, clonesF, more'', aT', rT', l'', fr'', heq, hker, -, -, hnop,
    hhoist, hcount, horig⟩ :=
    inlineConstants_spec defOf
      { callee := nm2, gridSize := l.gridSize, blockSize := l.blockSize,
        kernelOperands := l.kernelOperands } hconst nm2
      (l.kernelOperands.map typeOf) [] [kernelAttrName] S TS
      (indexOps12 fresh ++ opsBR) [] (fresh + 12) hS hTS
  have hone := outlineOneLaunch_eq_of typeOf defOf taken hostName l fresh
    ⟨hostName ++ "_kernel", l.kernelOperands.map typeOf, [],
      [kernelAttrName], [⟨S, TS, indexOps12 fresh ++ opsBR⟩]⟩
    { l with body := [] } (fresh + 12)
    ⟨nm2, aT', rT', [kernelAttrName],
      ⟨keepByOperands defOf l.kernelOperands S,
       keepByOperands defOf l.kernelOperands TS,
       clonesF ++
         (indexOps12 fresh ++ opsBR).map (Operation.mapOperands σ₂)⟩ ::
        more''⟩
    l'' fr'' hout heq
  have hmap : (indexOps12 fresh ++ opsBR).map (Operation.mapOperands σ₂) =
      indexOps12 fresh ++ opsBR.map (Operation.mapOperands σ₂) := by
    rw [List.map_append, indexOps12_map]
  refine ⟨l'', _, _, fr'',
    ⟨nm2, aT', rT', [kernelAttrName],
      ⟨keepByOperands defOf l.kernelOperands S,
       keepByOperands defOf l.kernelOperands TS,
       clonesF ++
         (indexOps12 fresh ++ opsBR).map (Operation.mapOperands σ₂)⟩ ::
        more''⟩,
    clonesF, opsBR.map (Operation.mapOperands σ₂),
    keepByOperands defOf l.kernelOperands S,
    keepByOperands defOf l.kernelOperands TS,
    hone, rfl, ?_, ?_, hcount, hker, ?_, rfl⟩
  · show some _ = some _
    rw [hmap]
  · intro c hc
    obtain ⟨u, op, -, -, hco, hk⟩ := horig c hc
    rw [isConstantOp_of_kind_eq hk]
    exact hco
  · by_cases hc : ∀ v ∈ l.kernelOperands, isConstantValue defOf v = false
    · obtain ⟨haT, -, -⟩ := hnop hc
      show aT'.length = _
      rw [haT]
      have hfe : l.kernelOperands.filter
          (fun v => !(isConstantValue defOf v)) = l.kernelOperands :=
        List.filter_eq_self.mpr (fun v hv => by simp [hc v hv])
      rw [hfe, List.length_map]
    · have hex : ∃ v ∈ l.kernelOperands, isConstantValue defOf v = true := by
        by_contra hno
        push_neg at hno
        apply hc
        intro v hv
        cases h' : isConstantValue defOf v
        · rfl
        · exact absurd h' (hno v hv)
      obtain ⟨haT, -, -⟩ := hhoist hex
      show aT'.length = _
      rw [haT]
      exact keepByOperands_length defOf l.kernelOperands TS hTS

theorem claim_C8_amended_witness :
    ∃ (L : LaunchFuncOp) (declStub : FuncOp) (kmod : KernelModule)
      (fr' : Nat),
      outlineOneLaunch tOf dOf ["host"] "host" l0 100 =
        some (L, declStub, kmod, fr') ∧
      L.kernelOperands = l0.kernelOperands.filter
        (fun v => !(isConstantValue dOf v)) ∧
      declStub.argTypes.length = (l0.kernelOperands.filter
        (fun v => !(isConstantValue dOf v))).length := by
  obtain ⟨L, d, k, fr', -, -, -, -, -, h1, -, -, -, -, h6, h7, -⟩ :=
    claim_C8_amended tOf dOf ["host"] "host" l0 100 (List.range 12)
      [40, 41] (List.replicate 12 MType.index) [MType.index, MType.index]
      [{ kind := .genericOp "use", operands := [0, 11, 40, 41],
         results := [50] },
       { kind := .gpuReturnOp, operands := [], results := [] }]
      (by decide) (by decide) (by decide) (by decide) (by decide)
      (by decide) (by decide) dOf_results
  exact ⟨L, d, k, fr', h1, h6, h7⟩

end GpuOutline
